import Mathlib

/-!
Shallow embedding of `src/part11/models.py` (a sonnet search engine:
tokenizer, inverted index with positional postings, per-word result
aggregation under AND/OR combination modes, span merging and ANSI
highlighting), together with theorems settling the specification claims.

Modelling conventions:
* Python strings are `List Char` (`Str`); offsets are code-point indices,
  matching Python string indexing.
* Python dicts are insertion-ordered association lists.  Assigning to an
  existing key updates the value in place (keeping the key's position);
  assigning to a fresh key appends at the end — exactly CPython semantics.
* The NLTK Porter stemmer is an external collaborator; every definition is
  parameterised by `stemmer : Str → Str` exactly where the source calls
  `stemmer.stem`.
* Python exceptions raised by `Sonnet.__init__` are modelled with an
  explicit error type (`PyError`); the only errors that code can raise are
  the builtin `IndexError` and `ValueError`.
-/

abbrev Str := List Char

abbrev Span := Nat × Nat

/-- The apostrophe character stripped by `normalize_token`. -/
def apostrophe : Char := Char.ofNat 39

/-- The escape character starting every ANSI control sequence. -/
def escChar : Char := Char.ofNat 27

/-- Whitespace test matching Python's `\s` / `str.split()` on ASCII input
(space, tab, newline, carriage return, vertical tab, form feed). -/
def pyIsSpace (c : Char) : Bool :=
  c = ' ' || c = '\t' || c = '\n' || c = '\r' || c = Char.ofNat 11 || c = Char.ofNat 12

/-- `normalize_token`: lowercase, then delete apostrophes, commas and
periods (`token.lower().replace("'","").replace(",","").replace(".","")`). -/
def normalize_token (token : Str) : Str :=
  (token.map Char.toLower).filter fun c => !(c = apostrophe || c = ',' || c = '.')

/-- `normalized_stem_token`: normalization followed by the injected
stemming function (`stemmer.stem(normalized_token)`). -/
def normalized_stem_token (stemmer : Str → Str) (token : Str) : Str :=
  stemmer (normalize_token token)

/-! ### Python dict operations as insertion-ordered association lists -/

/-- `d[k] = f (d.get k)`: update the first binding of `k` in place, or
append a fresh binding at the end — CPython dict assignment semantics. -/
def dupdate [DecidableEq K] (d : List (K × V)) (k : K) (f : Option V → V) :
    List (K × V) :=
  match d with
  | [] => [(k, f none)]
  | (k₁, v₁) :: rest =>
    if k₁ = k then (k₁, f (some v₁)) :: rest else (k₁, v₁) :: dupdate rest k f

/-- `d[k] = v` (CPython dict assignment). -/
def dinsert [DecidableEq K] (d : List (K × V)) (k : K) (v : V) : List (K × V) :=
  dupdate d k fun _ => v

/-- `d.get(k)` / `d[k]`: value of the first binding of `k`, if any. -/
def dlookup [DecidableEq K] (d : List (K × V)) (k : K) : Option V :=
  match d with
  | [] => none
  | (k₁, v₁) :: rest => if k₁ = k then some v₁ else dlookup rest k

/-- `k in d`. -/
def dmem [DecidableEq K] (d : List (K × V)) (k : K) : Prop :=
  (dlookup d k).isSome

/-! ### Data model -/

structure Posting where
  line_no : Option Nat
  position : Nat
  original_token : Str
deriving DecidableEq

structure Sonnet where
  title : Str
  lines : List Str
  id : Int
deriving DecidableEq

structure LineMatch where
  line_no : Nat
  text : Str
  spans : List Span
deriving DecidableEq

structure SearchResult where
  title : Str
  title_spans : List Span
  line_matches : List LineMatch
  /-- The Python attribute is named `matches`; `matches` is reserved
  syntax in Lean, so the spec's name `matchCount` is used instead. -/
  matchCount : Nat
deriving DecidableEq

abbrev PostMap := List (Int × List Posting)

abbrev IndexDict := List (Str × PostMap)

abbrev ResMap := List (Int × SearchResult)

/-! ### Stable sorts (Python `sorted`)

Python's `sorted` is a stable sort; `List.insertionSort` is also stable, and
for the total preorders used below the two agree.  Spans (pairs) are compared
lexicographically exactly as Python compares tuples. -/

/-- Lexicographic order on spans, as Python compares `(start, end)` tuples. -/
def spanLe (a b : Span) : Prop :=
  a.1 < b.1 ∨ (a.1 = b.1 ∧ a.2 ≤ b.2)

instance : DecidableRel spanLe := fun a b => by
  unfold spanLe; exact inferInstance

instance : IsTotal Span spanLe :=
  ⟨fun a b => by unfold spanLe; omega⟩

instance : IsTrans Span spanLe :=
  ⟨fun a b c => by unfold spanLe; omega⟩

instance : IsAntisymm Span spanLe :=
  ⟨fun a b h₁ h₂ => by
    unfold spanLe at h₁ h₂
    have : a.1 = b.1 ∧ a.2 = b.2 := by omega
    exact Prod.ext this.1 this.2⟩

/-- `sorted(spans)`. -/
def sortSpans (l : List Span) : List Span :=
  List.insertionSort spanLe l

/-- Comparison of line matches by line number (`key=lambda lm: lm.line_no`). -/
def lmLe (a b : LineMatch) : Prop := a.line_no ≤ b.line_no

instance : DecidableRel lmLe := fun a b => by
  unfold lmLe; exact inferInstance

instance : IsTotal LineMatch lmLe := ⟨fun a b => by unfold lmLe; omega⟩

instance : IsTrans LineMatch lmLe := ⟨fun a b c => by unfold lmLe; omega⟩

/-- `sorted(line_matches, key=lambda lm: lm.line_no)`. -/
def sortLineMatches (l : List LineMatch) : List LineMatch :=
  List.insertionSort lmLe l

/-- Comparison of `(line_no, spans)` pairs by line number; with distinct
line numbers this agrees with Python's full-tuple comparison in
`sorted(line_matches_dict.items())`. -/
def pairLe (a b : Nat × List Span) : Prop := a.1 ≤ b.1

instance : DecidableRel pairLe := fun a b => by
  unfold pairLe; exact inferInstance

instance : IsTotal (Nat × List Span) pairLe := ⟨fun a b => by unfold pairLe; omega⟩

instance : IsTrans (Nat × List Span) pairLe := ⟨fun a b c => by unfold pairLe; omega⟩

/-- Boolean lexicographic order on strings (Python `str` comparison,
used only as the `key=lambda sr: sr.title` sort of the final result list). -/
def strLeB : Str → Str → Bool
  | [], _ => true
  | _ :: _, [] => false
  | a :: as, b :: bs => if a < b then true else if a = b then strLeB as bs else false

def srTitleLe (a b : SearchResult) : Prop := strLeB a.title b.title = true

instance : DecidableRel srTitleLe := fun a b => by
  unfold srTitleLe; exact inferInstance

/-! ### Tokenizer

`Index.tokenize` uses `re.finditer(r"\S+", text)`: the ordered list of
maximal runs of non-whitespace characters with their 0-based start offsets. -/

/-- Non-whitespace test (`\S`). -/
def notWs (c : Char) : Bool := !(pyIsSpace c)

/-- Fuelled maximal-run scanner (the fuel only serves to make the
recursion structural; `tokenize` supplies enough fuel for it never to run
out). -/
def tokenizeFuel : Nat → Str → List (Str × Nat)
  | 0, _ => []
  | _, [] => []
  | fuel + 1, c :: rest =>
    if pyIsSpace c then
      (tokenizeFuel fuel rest).map fun p => (p.1, p.2 + 1)
    else
      (c :: rest.takeWhile notWs, 0) ::
        ((tokenizeFuel fuel (rest.dropWhile notWs)).map fun p =>
          (p.1, p.2 + (c :: rest.takeWhile notWs).length))

/-- `Index.tokenize`: maximal non-whitespace runs with start offsets. -/
def tokenize (l : Str) : List (Str × Nat) :=
  tokenizeFuel l.length l

/-- Python `str.split()` (whitespace split, empties discarded): the tokens
of `tokenize`, without offsets. -/
def pySplit (l : Str) : List Str :=
  (tokenize l).map Prod.fst

/-! ### Document construction (`Sonnet.__init__`) -/

/-- Errors the embedded code can raise; both are generic Python builtins
(`models.py` defines no error class of its own). -/
inductive PyError where
  | indexError
  | valueError
deriving DecidableEq

/-- `s.rstrip(":")`. -/
def rstripColon (l : Str) : Str :=
  (l.reverse.dropWhile fun c => c = ':').reverse

/-- Parse of a digit run with Python's single-underscore-between-digits
rule, accumulating into `acc`. -/
def pyDigitsAux (acc : Nat) : Str → Option Nat
  | [] => some acc
  | c :: rest =>
    if c.isDigit then pyDigitsAux (acc * 10 + (c.toNat - 48)) rest
    else if c = '_' then
      match rest with
      | [] => none
      | c₂ :: rest₂ =>
        if c₂.isDigit then pyDigitsAux (acc * 10 + (c₂.toNat - 48)) rest₂ else none
    else none

/-- Nonempty digit run (underscores allowed between digits). -/
def pyDigits : Str → Option Nat
  | [] => none
  | c :: rest => if c.isDigit then pyDigitsAux (c.toNat - 48) rest else none

/-- Python `int(s)` on ASCII input: optional surrounding whitespace, an
optional sign, then a nonempty digit run. -/
def pyInt (l : Str) : Option Int :=
  let t := (((l.dropWhile pyIsSpace).reverse.dropWhile pyIsSpace).reverse)
  match t with
  | '-' :: rest => (pyDigits rest).map fun n => -(n : Int)
  | '+' :: rest => (pyDigits rest).map fun n => (n : Int)
  | rest => (pyDigits rest).map fun n => (n : Int)

/-- `int(self.title.split()[1].rstrip(":"))`: the identifying number of a
sonnet title, or the Python builtin error that the expression raises. -/
def titleNumber (title : Str) : Except PyError Int :=
  match (pySplit title).get? 1 with
  | none => Except.error PyError.indexError
  | some w =>
    match pyInt (rstripColon w) with
    | none => Except.error PyError.valueError
    | some n => Except.ok n

/-- A raw corpus record: a title string and the ordered line strings. -/
abbrev SonnetData := Str × List Str

/-- `Sonnet.__init__`: store title and lines, then derive the id from the
title; a malformed title raises before any id is assigned. -/
def sonnetInit (data : SonnetData) : Except PyError Sonnet :=
  match titleNumber data.1 with
  | Except.error e => Except.error e
  | Except.ok n => Except.ok ⟨data.1, data.2, n⟩

/-- Modelled from the spec: the corpus collaborator (not under `src/`)
constructs one `Sonnet` per raw record before indexing begins; a raised
error aborts the whole load, so no partially built corpus is returned. -/
def loadCorpus : List SonnetData → Except PyError (List Sonnet)
  | [] => Except.ok []
  | r :: rest =>
    match sonnetInit r with
    | Except.error e => Except.error e
    | Except.ok s =>
      match loadCorpus rest with
      | Except.error e => Except.error e
      | Except.ok ss => Except.ok (s :: ss)

/-! ### Inverted index -/

structure Index where
  sonnets : List (Int × Sonnet)
  dictionary : IndexDict
deriving DecidableEq

/-- `Index._add_token`: append one `Posting` under `dictionary[stem][doc_id]`,
creating the nested entries if absent. -/
def addToken (dict : IndexDict) (doc_id : Int) (stem : Str) (line_no : Option Nat)
    (position : Nat) (token : Str) : IndexDict :=
  dupdate dict stem fun postingsOpt =>
    dupdate (postingsOpt.getD []) doc_id fun listOpt =>
      (listOpt.getD []) ++ [⟨line_no, position, token⟩]

/-- Index the tokens of one source text (the title when `line_no = none`,
else the line with that 1-based number), skipping empty stems. -/
def indexText (stemmer : Str → Str) (dict : IndexDict) (doc_id : Int)
    (line_no : Option Nat) (text : Str) : IndexDict :=
  (tokenize text).foldl
    (fun dict p =>
      let stem := normalized_stem_token stemmer p.1
      if stem ≠ [] then addToken dict doc_id stem line_no p.2 p.1 else dict)
    dict

/-- `Index.__init__`: the id-keyed sonnet dict and the single build pass
over every sonnet's title and lines. -/
def Index.build (stemmer : Str → Str) (sonnets : List Sonnet) : Index where
  sonnets := sonnets.foldl (fun m s => dinsert m s.id s) []
  dictionary :=
    sonnets.foldl
      (fun dict s =>
        let dict := indexText stemmer dict s.id none s.title
        (s.lines.enumFrom 1).foldl
          (fun dict p => indexText stemmer dict s.id (some p.1) p.2)
          dict)
      []

/-- The single-posting `SearchResult` built inside `Index.search_for`'s
posting loop (a title span when `line_no` is `None`, else one `LineMatch`
holding that line's text; `sonnet.lines[posting.line_no - 1]` is total in
any built index). -/
def postingResult (sonnet : Sonnet) (posting : Posting) : SearchResult :=
  let span : Span := (posting.position, posting.position + posting.original_token.length)
  match posting.line_no with
  | none => ⟨sonnet.title, [span], [], 1⟩
  | some ln => ⟨sonnet.title, [], [⟨ln, sonnet.lines.getD (ln - 1) [], [span]⟩], 1⟩

/-- The dict comprehension `{lm.line_no: lm.copy() for lm in
self.line_matches}` of `combine_with` (later duplicates overwrite the
value but keep the key's position, as in CPython). -/
def lmDict (lms : List LineMatch) : List (Nat × LineMatch) :=
  lms.foldl (fun d lm => dinsert d lm.line_no lm) []

/-- One iteration of `combine_with`'s loop over `other.line_matches`:
extend the span list of a line already in the dict (keeping its text), or
append a fresh binding. -/
def lmMergeStep (d : List (Nat × LineMatch)) (lm : LineMatch) :
    List (Nat × LineMatch) :=
  match dlookup d lm.line_no with
  | some cur => dinsert d lm.line_no { cur with spans := cur.spans ++ lm.spans }
  | none => d ++ [(lm.line_no, lm)]

/-- `combine_with`'s loop over `other.line_matches`. -/
def lmMerge (d : List (Nat × LineMatch)) (lms : List LineMatch) :
    List (Nat × LineMatch) :=
  lms.foldl lmMergeStep d

/-- `SearchResult.combine_with`: add the match counts, sort the pooled
title spans, and merge line matches through a line-number-keyed dict,
finally sorting the dict values by line number. -/
def SearchResult.combine_with (a other : SearchResult) : SearchResult :=
  { title := a.title
    title_spans := sortSpans (a.title_spans ++ other.title_spans)
    line_matches :=
      sortLineMatches ((lmMerge (lmDict a.line_matches) other.line_matches).map Prod.snd)
    matchCount := a.matchCount + other.matchCount }

/-- The posting loop of `Index.search_for`: build the single-posting
result and either seed this document's entry or combine into it. -/
def rawInner (doc_id : Int) (sonnet : Sonnet) (results : ResMap)
    (posting : Posting) : ResMap :=
  let sr := postingResult sonnet posting
  match dlookup results doc_id with
  | none => dinsert results doc_id sr
  | some prev => dinsert results doc_id (prev.combine_with sr)

/-- The per-document loop of `Index.search_for`.  A missing sonnet entry
is skipped (in the Python source that lookup is `self.sonnets[doc_id]`,
which never fails on a built index). -/
def rawOuter (index : Index) (results : ResMap) (p : Int × List Posting) : ResMap :=
  match dlookup index.sonnets p.1 with
  | none => results
  | some sonnet => p.2.foldl (rawInner p.1 sonnet) results

/-- The body of `Index.search_for` after its own `normalized_stem_token`
call: look the already-stemmed token up in the dictionary and fold each
document's postings into one combined `SearchResult` per document. -/
def rawLookup (index : Index) (token : Str) : ResMap :=
  if token = [] then []
  else
    match dlookup index.dictionary token with
    | none => []
    | some postings_list => postings_list.foldl (rawOuter index) []

/-- `Index.search_for`: stem the received token (again — the searcher has
already stemmed it once), then look it up. -/
def Index.search_for (stemmer : Str → Str) (index : Index) (token : Str) : ResMap :=
  rawLookup index (normalized_stem_token stemmer token)

/-- The span one posting denotes:
`(posting.position, posting.position + len(posting.original_token))`. -/
def spanOfPosting (p : Posting) : Span :=
  (p.position, p.position + p.original_token.length)

/-- The title spans of a posting list, in posting order (the appends to
`title_spans` in `Sonnet.search_for`'s loop). -/
def titleSpansOf (ps : List Posting) : List Span :=
  (ps.filter fun p => p.line_no = none).map spanOfPosting

/-- The spans a posting list records at line `n`, in posting order. -/
def lineSpansOf (ps : List Posting) (n : Nat) : List Span :=
  (ps.filter fun p => p.line_no = some n).map spanOfPosting

/-- One iteration of `Sonnet.search_for`'s grouping loop:
`line_matches_dict.setdefault(posting.line_no, []).append(span)` for line
postings, and nothing for title postings (their spans are collected by
`titleSpansOf`). -/
def sonnetLineDictStep (d : List (Nat × List Span)) (p : Posting) :
    List (Nat × List Span) :=
  match p.line_no with
  | none => d
  | some ln => dupdate d ln fun cur => (cur.getD []) ++ [spanOfPosting p]

/-- The `line_matches_dict` built by `Sonnet.search_for`. -/
def sonnetLineDict (ps : List Posting) : List (Nat × List Span) :=
  ps.foldl sonnetLineDictStep []

/-- `Sonnet.search_for`: stem the query, read this document's postings for
that stem out of the index, and group them directly — title spans in
posting order, line spans grouped by line number via `setdefault`, line
matches sorted by line number, and the total count summed at the end. -/
def Sonnet.search_for (stemmer : Str → Str) (s : Sonnet) (query : Str)
    (index : Index) : SearchResult :=
  let stem := normalized_stem_token stemmer query
  match dlookup index.dictionary stem with
  | none => ⟨s.title, [], [], 0⟩
  | some postings_list =>
    let postings := (dlookup postings_list s.id).getD []
    let title_spans := titleSpansOf postings
    let line_matches :=
      (List.insertionSort pairLe (sonnetLineDict postings)).map
        fun q => (⟨q.1, s.lines.getD (q.1 - 1) [], q.2⟩ : LineMatch)
    ⟨s.title, title_spans, line_matches,
      title_spans.length + (line_matches.map fun lm => lm.spans.length).sum⟩

/-! ### Searcher -/

def OR_MODE : Str := ['O', 'R']

def AND_MODE : Str := ['A', 'N', 'D']

/-- One `OR` step for one document of the current word's results:
combine into the running map if present, else insert fresh. -/
def orStep (combined : ResMap) (entry : Int × SearchResult) : ResMap :=
  match dlookup combined entry.1 with
  | some c => dinsert combined entry.1 (c.combine_with entry.2)
  | none => combined ++ [entry]

/-- One `AND` pass: combine every running document also present in this
word's results, and delete the others (the Python loop collects them in
`deleted` and removes them afterwards, which preserving order is exactly
this `filterMap`). -/
def andStep (combined : ResMap) (results : ResMap) : ResMap :=
  combined.filterMap fun p =>
    match dlookup results p.1 with
    | some r => some (p.1, p.2.combine_with r)
    | none => none

/-- The body of `Searcher.search`'s word loop: stem the word, fetch its
per-word map, then seed / OR-merge / AND-filter the running map.  Note the
seeding test is `if not combined_results`, i.e. emptiness of the running
map, not `is this the first word`. -/
def searchStep (stemmer : Str → Str) (index : Index) (mode : Str)
    (combined : ResMap) (word : Str) : ResMap :=
  let token := normalized_stem_token stemmer word
  let results := Index.search_for stemmer index token
  if combined = [] then results
  else if mode = OR_MODE then results.foldl orStep combined
  else andStep combined results

/-- The final document-id-keyed mapping produced by `Searcher.search`
(before its values are listed and sorted by title). -/
def Searcher.search_map (stemmer : Str → Str) (index : Index) (query : Str)
    (mode : Str) : ResMap :=
  (pySplit query).foldl (searchStep stemmer index mode) []

/-- `Searcher.search`: the final mapping's values sorted by title. -/
def Searcher.search (stemmer : Str → Str) (index : Index) (query : Str)
    (mode : Str) : List SearchResult :=
  List.insertionSort srTitleLe ((Searcher.search_map stemmer index query mode).map Prod.snd)

/-! ### Span merging and highlighting (`SearchResult.ansi_highlight`) -/

/-- The single merging scan of `ansi_highlight`: fold each sorted span
whose start is `<=` the current merged span's end into it (extending the
end to the max), emitting the merged span whenever a gap is found. -/
def mergeLoop (curS curE : Nat) : List Span → List Span
  | [] => [(curS, curE)]
  | (s, e) :: rest =>
    if s ≤ curE then mergeLoop curS (max curE e) rest
    else (curS, curE) :: mergeLoop s e rest

/-- The span merger: sort by Python tuple order, then scan once. -/
def mergeSpans (spans : List Span) : List Span :=
  match sortSpans spans with
  | [] => []
  | (s, e) :: rest => mergeLoop s e rest

/-- Python `text[a:b]` for natural indices (clamped at the ends). -/
def pySlice (text : Str) (a b : Nat) : Str :=
  (text.take b).drop a

/-- The ANSI opening sequence for `DEFAULT` mode
(`"\033[43m\033[30m"`, yellow background then black text). -/
def defaultSeq : Str :=
  [escChar, '[', '4', '3', 'm', escChar, '[', '3', '0', 'm']

/-- The ANSI opening sequence for every other highlight mode
(`"\033[1;92m"`, bold bright green). -/
def brightSeq : Str :=
  [escChar, '[', '1', ';', '9', '2', 'm']

/-- The ANSI reset sequence `"\033[0m"`. -/
def resetSeq : Str :=
  [escChar, '[', '0', 'm']

def DEFAULT_MODE : Str := ['D', 'E', 'F', 'A', 'U', 'L', 'T']

/-- The output loop of `ansi_highlight`: emit `text[i:s]`, the opening
sequence, `text[s:e]`, the reset, then continue from `i = e`; after the
last merged span emit `text[i:]`. -/
def highlightLoop (text : Str) (seq : Str) (i : Nat) : List Span → Str
  | [] => text.drop i
  | (s, e) :: rest =>
    pySlice text i s ++ seq ++ pySlice text s e ++ resetSeq ++
      highlightLoop text seq e rest

/-- `SearchResult.ansi_highlight`: unchanged text when there are no spans;
otherwise merge the spans and wrap each merged span's substring in the
mode's ANSI sequence and a reset. -/
def ansi_highlight (text : Str) (spans : List Span) (highlight_mode : Str) : Str :=
  if spans = [] then text
  else
    highlightLoop text (if highlight_mode = DEFAULT_MODE then defaultSeq else brightSeq)
      0 (mergeSpans spans)

/-- Drop up to and including the first `'m'` (the terminator of an ANSI
escape sequence). -/
def dropToM (l : Str) : Str :=
  (l.dropWhile fun c => c ≠ 'm').drop 1

/-- Fuelled ANSI-sequence eraser (the fuel only makes the recursion
structural; `stripAnsi` supplies enough for it never to run out). -/
def stripAnsiFuel : Nat → Str → Str
  | 0, _ => []
  | _, [] => []
  | fuel + 1, c :: rest =>
    if c = escChar then stripAnsiFuel fuel (dropToM rest)
    else c :: stripAnsiFuel fuel rest

/-- Delete every ANSI escape sequence (from each escape character through
the next `'m'`) from a string. -/
def stripAnsi (l : Str) : Str :=
  stripAnsiFuel l.length l

/-! ### Observation functions and invariants used by the claims -/

/-- The spans recorded at line `n` across a list of line matches, in order. -/
def spansAtL (lms : List LineMatch) (n : Nat) : List Span :=
  ((lms.filter fun lm => lm.line_no == n).map fun lm => lm.spans).flatten

/-- The spans a `SearchResult` records at line `n`. -/
def lineSpansAt (sr : SearchResult) (n : Nat) : List Span :=
  spansAtL sr.line_matches n

/-- The texts a `SearchResult` records at line `n`. -/
def lineTextsAt (sr : SearchResult) (n : Nat) : List Str :=
  (sr.line_matches.filter fun lm => lm.line_no == n).map fun lm => lm.text

/-- Total number of spans over all line matches. -/
def lineSpanTotal (lms : List LineMatch) : Nat :=
  (lms.map fun lm => lm.spans.length).sum

/-- The `SearchResult` invariant of the spec: `matchCount` equals the
number of title spans plus the number of line spans. -/
def srInv (sr : SearchResult) : Prop :=
  sr.matchCount = sr.title_spans.length + lineSpanTotal sr.line_matches

/-- The line matches of a result carry pairwise distinct line numbers. -/
def linesNodup (sr : SearchResult) : Prop :=
  (sr.line_matches.map fun lm => lm.line_no).Nodup

/-- The two well-formedness facts every result flowing through the system
satisfies: the `matchCount` invariant, and distinct line numbers. -/
def SRok (sr : SearchResult) : Prop :=
  srInv sr ∧ linesNodup sr

instance (sr : SearchResult) : Decidable (srInv sr) := by
  unfold srInv; exact inferInstance

instance (sr : SearchResult) : Decidable (linesNodup sr) := by
  unfold linesNodup; exact List.nodupDecidable _

instance (sr : SearchResult) : Decidable (SRok sr) := by
  unfold SRok; exact inferInstance

/-- Well-formedness of a line-number-keyed dict: keys are distinct and
every binding's key is its value's line number. -/
def wfDict (d : List (Nat × LineMatch)) : Prop :=
  (d.map Prod.fst).Nodup ∧ ∀ p ∈ d, p.1 = p.2.line_no

/-- Keys of a result mapping are pairwise distinct. -/
def keysNodup (m : ResMap) : Prop :=
  (m.map Prod.fst).Nodup

instance (m : ResMap) : Decidable (keysNodup m) := by
  unfold keysNodup; exact List.nodupDecidable _

/-- Every line match of the result carries the verbatim text of its line
in the given sonnet. -/
def textOk (son : Sonnet) (sr : SearchResult) : Prop :=
  ∀ lm ∈ sr.line_matches, lm.text = son.lines.getD (lm.line_no - 1) []

/-- Every line match of the result holds at least one span. -/
def spansFilled (sr : SearchResult) : Prop :=
  ∀ lm ∈ sr.line_matches, lm.spans ≠ []

/-- The spans recorded at key `n` of a line-number-keyed span dict. -/
def spansAtP (d : List (Nat × List Span)) (n : Nat) : List Span :=
  ((d.filter fun p => p.1 = n).map Prod.snd).flatten

/-- The value `Index.search_for`'s posting loop accumulates for one
document: fold each posting's single result into the accumulator by
`combine_with`, seeding with the first posting's result. -/
def innerValue (son : Sonnet) (acc : Option SearchResult) (ps : List Posting) :
    Option SearchResult :=
  ps.foldl
    (fun a p =>
      match a with
      | none => some (postingResult son p)
      | some prev => some (prev.combine_with (postingResult son p)))
    acc

/-- The record `Sonnet.search_for` builds when the dictionary lookup hits,
as a function of this document's postings. -/
def sonnetHit (s : Sonnet) (ps : List Posting) : SearchResult :=
  let line_matches :=
    (List.insertionSort pairLe (sonnetLineDict ps)).map
      fun q => (⟨q.1, s.lines.getD (q.1 - 1) [], q.2⟩ : LineMatch)
  ⟨s.title, titleSpansOf ps, line_matches,
    (titleSpansOf ps).length + (line_matches.map fun lm => lm.spans.length).sum⟩

/-- Position `i` lies inside the half-open span `[start, end)`. -/
def covers (sp : Span) (i : Nat) : Prop :=
  sp.1 ≤ i ∧ i < sp.2

instance (sp : Span) (i : Nat) : Decidable (covers sp i) := by
  unfold covers; exact inferInstance

/-- Position `i` is covered by some span of the list. -/
def coveredBy (l : List Span) (i : Nat) : Prop :=
  ∃ sp ∈ l, covers sp i

instance (l : List Span) (i : Nat) : Decidable (coveredBy l i) := by
  unfold coveredBy; exact inferInstance

/-! ### Concrete demonstration corpus (identity stemmer) -/

/-- A stemmer that changes nothing: `stem` is an injected collaborator,
and the identity makes concrete runs easy to evaluate. -/
def demoStem : Str → Str := fun s => s

/-- A stemmer that drops the last character: normalization-then-stemming
with it is not idempotent, like Porter stemming. -/
def dropStem : Str → Str := fun s => s.dropLast

def demoTitle : Str := ['S', 'o', 'n', 'n', 'e', 't', ' ', '1', ':']

def demoLine : Str := ['t', 'h', 'e', 'e', ' ', 'a']

def demoSonnet : Sonnet := ⟨demoTitle, [demoLine], 1⟩

def demoIndex : Index := Index.build demoStem [demoSonnet]

/-- The same corpus indexed through the non-idempotent `dropStem`. -/
def dropIndex : Index := Index.build dropStem [demoSonnet]

def demoQueryZT : Str := ['z', 'z', 'z', ' ', 't', 'h', 'e', 'e']

def demoQueryT : Str := ['t', 'h', 'e', 'e']

/-- A result whose two line matches share line number 1 (the spec's §4.3
explicitly allows this representation). -/
def dupLineResult : SearchResult :=
  ⟨demoTitle, [], [⟨1, demoLine, [(0, 1)]⟩, ⟨1, demoLine, [(2, 3)]⟩], 2⟩

/-- An empty result about the same document. -/
def emptyResult : SearchResult := ⟨demoTitle, [], [], 0⟩

/-- The result the demo index yields for the query word `thee`. -/
def demoTheeResult : SearchResult :=
  ⟨demoTitle, [], [⟨1, demoLine, [(0, 4)]⟩], 1⟩

/-- The unindexed query word `zzz`. -/
def demoWordZ : Str := ['z', 'z', 'z']

/-- A corpus record whose one-word title has no second word to parse. -/
def badRecord : SonnetData := (['H', 'e', 'l', 'l', 'o'], [])

/-- A corpus record whose title's second word is not a number. -/
def badRecordValue : SonnetData :=
  (['S', 'o', 'n', 'n', 'e', 't', ' ', 'a', 'b', 'c', ':'], [])

/-! ## Theorems -/

/-! ### Fuel sufficiency and equation lemmas for the fuelled scanners -/

theorem tokenizeFuel_eq_of_le {fuel₁ fuel₂ : Nat} :
    ∀ {l : Str}, l.length ≤ fuel₁ → l.length ≤ fuel₂ →
      tokenizeFuel fuel₁ l = tokenizeFuel fuel₂ l := by
  induction fuel₁ generalizing fuel₂ with
  | zero =>
    intro l h₁ h₂
    have : l = [] := List.eq_nil_of_length_eq_zero (Nat.le_zero.mp h₁)
    subst this
    cases fuel₂ <;> rfl
  | succ f₁ ih =>
    intro l h₁ h₂
    cases l with
    | nil => cases fuel₂ <;> rfl
    | cons c rest =>
      cases fuel₂ with
      | zero => simp at h₂
      | succ f₂ =>
        simp only [List.length_cons, Nat.add_le_add_iff_right] at h₁ h₂
        have hdrop₁ : (rest.dropWhile notWs).length ≤ f₁ :=
          Nat.le_trans ((List.dropWhile_suffix notWs).length_le) h₁
        have hdrop₂ : (rest.dropWhile notWs).length ≤ f₂ :=
          Nat.le_trans ((List.dropWhile_suffix notWs).length_le) h₂
        by_cases hws : pyIsSpace c <;>
          simp [tokenizeFuel, hws, ih h₁ h₂, ih hdrop₁ hdrop₂]

theorem tokenize_nil : tokenize [] = [] := rfl

theorem tokenize_cons_ws {c : Char} (rest : Str) (h : pyIsSpace c) :
    tokenize (c :: rest) = (tokenize rest).map fun p => (p.1, p.2 + 1) := by
  simp [tokenize, tokenizeFuel, h]

theorem tokenize_cons_tok {c : Char} (rest : Str) (h : ¬pyIsSpace c) :
    tokenize (c :: rest) =
      (c :: rest.takeWhile notWs, 0) ::
        ((tokenize (rest.dropWhile notWs)).map fun p =>
          (p.1, p.2 + (c :: rest.takeWhile notWs).length)) := by
  have hfe := tokenizeFuel_eq_of_le (l := rest.dropWhile notWs)
    ((List.dropWhile_suffix notWs).length_le) (Nat.le_refl _)
  simp [tokenize, tokenizeFuel, h, hfe]

theorem stripAnsiFuel_eq_of_le {fuel₁ fuel₂ : Nat} :
    ∀ {l : Str}, l.length ≤ fuel₁ → l.length ≤ fuel₂ →
      stripAnsiFuel fuel₁ l = stripAnsiFuel fuel₂ l := by
  induction fuel₁ generalizing fuel₂ with
  | zero =>
    intro l h₁ h₂
    have : l = [] := List.eq_nil_of_length_eq_zero (Nat.le_zero.mp h₁)
    subst this
    cases fuel₂ <;> rfl
  | succ f₁ ih =>
    intro l h₁ h₂
    cases l with
    | nil => cases fuel₂ <;> rfl
    | cons c rest =>
      cases fuel₂ with
      | zero => simp at h₂
      | succ f₂ =>
        simp only [List.length_cons, Nat.add_le_add_iff_right] at h₁ h₂
        have hd : (dropToM rest).length ≤ rest.length :=
          Nat.le_trans ((List.drop_suffix 1 _).length_le)
            ((List.dropWhile_suffix _).length_le)
        by_cases he : c = escChar <;>
          simp [stripAnsiFuel, he, ih h₁ h₂,
            ih (Nat.le_trans hd h₁) (Nat.le_trans hd h₂)]

theorem stripAnsi_nil : stripAnsi [] = [] := rfl

theorem stripAnsi_cons_esc (rest : Str) :
    stripAnsi (escChar :: rest) = stripAnsi (dropToM rest) := by
  have hd : (dropToM rest).length ≤ rest.length :=
    Nat.le_trans ((List.drop_suffix 1 _).length_le)
      ((List.dropWhile_suffix _).length_le)
  simp only [stripAnsi, List.length_cons, stripAnsiFuel, if_pos rfl]
  exact stripAnsiFuel_eq_of_le hd (Nat.le_refl _)

theorem stripAnsi_cons_ne {c : Char} (rest : Str) (h : ¬c = escChar) :
    stripAnsi (c :: rest) = c :: stripAnsi rest := by
  simp [stripAnsi, stripAnsiFuel, h]

/-! ### Association-list dictionary lemmas -/

theorem dlookup_append [DecidableEq K] (d₁ d₂ : List (K × V)) (k : K) :
    dlookup (d₁ ++ d₂) k =
      match dlookup d₁ k with
      | some v => some v
      | none => dlookup d₂ k := by
  induction d₁ with
  | nil => rfl
  | cons p rest ih =>
    obtain ⟨k₁, v₁⟩ := p
    by_cases h : k₁ = k <;> simp [dlookup, h, ih]

theorem dlookup_eq_none [DecidableEq K] {d : List (K × V)} {k : K} :
    dlookup d k = none ↔ k ∉ d.map Prod.fst := by
  induction d with
  | nil => simp [dlookup]
  | cons p rest ih =>
    obtain ⟨k₁, v₁⟩ := p
    by_cases h : k₁ = k <;> simp [dlookup, h, ih] <;> tauto

theorem dlookup_mem [DecidableEq K] {d : List (K × V)} {k : K} {v : V}
    (h : dlookup d k = some v) : (k, v) ∈ d := by
  induction d with
  | nil => simp [dlookup] at h
  | cons p rest ih =>
    obtain ⟨k₁, v₁⟩ := p
    by_cases hk : k₁ = k
    · simp [dlookup, hk] at h
      simp [hk, h]
    · simp [dlookup, hk] at h
      exact List.mem_cons_of_mem _ (ih h)

theorem dinsert_eq_append [DecidableEq K] {d : List (K × V)} {k : K} (v : V)
    (h : dlookup d k = none) : dinsert d k v = d ++ [(k, v)] := by
  induction d with
  | nil => rfl
  | cons p rest ih =>
    obtain ⟨k₁, v₁⟩ := p
    by_cases hk : k₁ = k
    · simp [dlookup, hk] at h
    · simp [dlookup, hk] at h
      simp [dinsert, dupdate, hk] at ih ⊢
      exact ih h

theorem dinsert_keys_of_mem [DecidableEq K] {d : List (K × V)} {k : K} {v₀ : V} (v : V)
    (h : dlookup d k = some v₀) : (dinsert d k v).map Prod.fst = d.map Prod.fst := by
  induction d with
  | nil => simp [dlookup] at h
  | cons p rest ih =>
    obtain ⟨k₁, v₁⟩ := p
    by_cases hk : k₁ = k
    · simp [dinsert, dupdate, hk]
    · simp [dlookup, hk] at h
      simp [dinsert, dupdate, hk] at ih ⊢
      exact ih h

theorem dlookup_dinsert_self [DecidableEq K] (d : List (K × V)) (k : K) (v : V) :
    dlookup (dinsert d k v) k = some v := by
  induction d with
  | nil => simp [dinsert, dupdate, dlookup]
  | cons p rest ih =>
    obtain ⟨k₁, v₁⟩ := p
    by_cases hk : k₁ = k <;> simp [dinsert, dupdate, dlookup, hk] at ih ⊢ <;> exact ih

theorem dlookup_dinsert_ne [DecidableEq K] (d : List (K × V)) {j k : K} (v : V)
    (h : j ≠ k) : dlookup (dinsert d k v) j = dlookup d j := by
  have hkj : k ≠ j := fun hh => h hh.symm
  induction d with
  | nil => simp [dinsert, dupdate, dlookup, hkj]
  | cons p rest ih =>
    obtain ⟨k₁, v₁⟩ := p
    by_cases hk : k₁ = k
    · subst hk
      have : k₁ ≠ j := hkj
      simp [dinsert, dupdate, dlookup, this]
    · by_cases hj : k₁ = j
      · simp [dinsert, dupdate, dlookup, hk, hj, h]
      · simp [dinsert, dupdate, dlookup, hk, hj] at ih ⊢
        exact ih

theorem dinsert_keys_nodup [DecidableEq K] {d : List (K × V)} (k : K) (v : V)
    (h : (d.map Prod.fst).Nodup) : ((dinsert d k v).map Prod.fst).Nodup := by
  cases hl : dlookup d k with
  | some v₀ => rw [dinsert_keys_of_mem v hl]; exact h
  | none =>
    rw [dinsert_eq_append v hl]
    have hk := dlookup_eq_none.mp hl
    simp [List.nodup_append, h, hk]

theorem dinsert_forall [DecidableEq K] {P : K → V → Prop} {d : List (K × V)}
    {k : K} {v : V} (hd : ∀ p ∈ d, P p.1 p.2) (hv : P k v) :
    ∀ p ∈ dinsert d k v, P p.1 p.2 := by
  induction d with
  | nil => simpa [dinsert, dupdate] using hv
  | cons q rest ih =>
    obtain ⟨k₁, v₁⟩ := q
    by_cases hk : k₁ = k
    · subst hk
      intro p hp
      simp [dinsert, dupdate] at hp
      rcases hp with h | h
      · subst h; exact hv
      · exact hd p (List.mem_cons_of_mem _ h)
    · intro p hp
      simp [dinsert, dupdate, hk] at hp
      rcases hp with h | h
      · subst h; exact hd _ (List.mem_cons_self _ _)
      · exact ih (fun q hq => hd q (List.mem_cons_of_mem _ hq)) p h

/-! ### Characterisation of `combine_with`'s line-match merging -/

theorem spansAtL_cons (lm : LineMatch) (lms : List LineMatch) (n : Nat) :
    spansAtL (lm :: lms) n =
      (if lm.line_no = n then lm.spans else []) ++ spansAtL lms n := by
  by_cases h : lm.line_no = n <;> simp [spansAtL, h]

theorem spansAtL_append (l₁ l₂ : List LineMatch) (n : Nat) :
    spansAtL (l₁ ++ l₂) n = spansAtL l₁ n ++ spansAtL l₂ n := by
  simp [spansAtL, List.filter_append]

theorem spansAtL_perm {l₁ l₂ : List LineMatch} (h : l₁.Perm l₂) (n : Nat) :
    (spansAtL l₁ n).Perm (spansAtL l₂ n) :=
  ((h.filter _).map _).flatten

theorem lineSpanTotal_cons (lm : LineMatch) (lms : List LineMatch) :
    lineSpanTotal (lm :: lms) = lm.spans.length + lineSpanTotal lms := by
  simp [lineSpanTotal]

theorem lineSpanTotal_append (l₁ l₂ : List LineMatch) :
    lineSpanTotal (l₁ ++ l₂) = lineSpanTotal l₁ + lineSpanTotal l₂ := by
  simp [lineSpanTotal]

theorem lineSpanTotal_perm {l₁ l₂ : List LineMatch} (h : l₁.Perm l₂) :
    lineSpanTotal l₁ = lineSpanTotal l₂ :=
  (h.map _).sum_eq

theorem spansAtL_eq_nil_of_not_mem {d : List (Nat × LineMatch)} {n : Nat}
    (hc : ∀ p ∈ d, p.1 = p.2.line_no) (h : n ∉ d.map Prod.fst) :
    spansAtL (d.map Prod.snd) n = [] := by
  induction d with
  | nil => rfl
  | cons p rest ih =>
    obtain ⟨k₁, v₁⟩ := p
    have hk₁ : k₁ = v₁.line_no := hc _ (List.mem_cons_self _ _)
    simp only [List.map_cons, spansAtL_cons]
    have hne : v₁.line_no ≠ n := by
      intro hh; exact h (by simp [hk₁, hh])
    rw [if_neg hne, List.nil_append]
    exact ih (fun q hq => hc q (List.mem_cons_of_mem _ hq)) (fun hh => h (by simp [hh]))

theorem dupdate_keys [DecidableEq K] (d : List (K × V)) (k : K) (f : Option V → V) :
    (dupdate d k f).map Prod.fst =
      if k ∈ d.map Prod.fst then d.map Prod.fst else d.map Prod.fst ++ [k] := by
  induction d with
  | nil => simp [dupdate]
  | cons p rest ih =>
    obtain ⟨k₁, v₁⟩ := p
    by_cases hk : k₁ = k
    · simp [dupdate, hk]
    · have : ¬k = k₁ := fun hh => hk hh.symm
      by_cases hm : k ∈ rest.map Prod.fst <;> simp [dupdate, hk, this, hm, ih]

theorem dupdate_keys_nodup [DecidableEq K] {d : List (K × V)} (k : K) (f : Option V → V)
    (h : (d.map Prod.fst).Nodup) : ((dupdate d k f).map Prod.fst).Nodup := by
  rw [dupdate_keys]
  by_cases hm : k ∈ d.map Prod.fst <;> simp [hm, h, List.nodup_append]

theorem lmDict_wf (lms : List LineMatch) : wfDict (lmDict lms) := by
  suffices h : ∀ d, wfDict d →
      wfDict (lms.foldl (fun d lm => dinsert d lm.line_no lm) d) by
    exact h [] ⟨List.nodup_nil, by simp⟩
  induction lms with
  | nil => exact fun d hd => hd
  | cons lm rest ih =>
    intro d hd
    exact ih _ ⟨dinsert_keys_nodup _ _ hd.1,
      dinsert_forall (P := fun (k : Nat) (v : LineMatch) => k = v.line_no) hd.2 rfl⟩

theorem lmMergeStep_wf {d : List (Nat × LineMatch)} (hd : wfDict d) (lm : LineMatch) :
    wfDict (lmMergeStep d lm) := by
  unfold lmMergeStep
  cases h : dlookup d lm.line_no with
  | none =>
    have hk := dlookup_eq_none.mp h
    constructor
    · simp [List.nodup_append, hd.1, hk]
    · intro p hp
      rcases List.mem_append.mp hp with h₁ | h₁
      · exact hd.2 p h₁
      · simp at h₁; simp [h₁]
  | some cur =>
    have hcur : lm.line_no = cur.line_no := hd.2 _ (dlookup_mem h)
    constructor
    · rw [dinsert_keys_of_mem _ h]; exact hd.1
    · exact dinsert_forall (P := fun (k : Nat) (v : LineMatch) => k = v.line_no) hd.2 hcur

theorem lmMerge_wf {d : List (Nat × LineMatch)} (hd : wfDict d)
    (lms : List LineMatch) : wfDict (lmMerge d lms) := by
  induction lms generalizing d with
  | nil => exact hd
  | cons lm rest ih => exact ih (lmMergeStep_wf hd lm)

theorem dinsert_update_spansAt {d : List (Nat × LineMatch)} (hwf : wfDict d)
    {k : Nat} {cur : LineMatch} (hcur : dlookup d k = some cur) (sp : List Span)
    (n : Nat) :
    spansAtL ((dinsert d k { cur with spans := cur.spans ++ sp }).map Prod.snd) n =
      spansAtL (d.map Prod.snd) n ++ if k = n then sp else [] := by
  induction d with
  | nil => simp [dlookup] at hcur
  | cons p rest ih =>
    obtain ⟨k₁, v₁⟩ := p
    have hk₁ : k₁ = v₁.line_no := hwf.2 _ (List.mem_cons_self _ _)
    have hrest : wfDict rest :=
      ⟨(List.nodup_cons.mp hwf.1).2, fun q hq => hwf.2 q (List.mem_cons_of_mem _ hq)⟩
    by_cases hk : k₁ = k
    · subst hk
      simp only [dlookup, if_pos rfl] at hcur
      injection hcur with hcur
      subst hcur
      have hnotin : k₁ ∉ rest.map Prod.fst := (List.nodup_cons.mp hwf.1).1
      have hstep :
          dinsert ((k₁, v₁) :: rest) k₁ { v₁ with spans := v₁.spans ++ sp } =
            (k₁, { v₁ with spans := v₁.spans ++ sp }) :: rest := by
        simp [dinsert, dupdate]
      rw [hstep, List.map_cons, List.map_cons, spansAtL_cons, spansAtL_cons]
      by_cases hn : v₁.line_no = n
      · have hkn : k₁ = n := hk₁.trans hn
        rw [if_pos (show ({ v₁ with spans := v₁.spans ++ sp } : LineMatch).line_no = n from hn),
          if_pos hn, if_pos hkn]
        rw [spansAtL_eq_nil_of_not_mem hrest.2 (hkn ▸ hnotin)]
        simp
      · have hkn : k₁ ≠ n := fun hh => hn (hk₁.symm.trans hh)
        rw [if_neg (show ¬({ v₁ with spans := v₁.spans ++ sp } : LineMatch).line_no = n from hn),
          if_neg hn, if_neg hkn]
        simp
    · have hlook : dlookup rest k = some cur := by
        simpa [dlookup, hk] using hcur
      have hstep :
          dinsert ((k₁, v₁) :: rest) k { cur with spans := cur.spans ++ sp } =
            (k₁, v₁) :: dinsert rest k { cur with spans := cur.spans ++ sp } := by
        simp [dinsert, dupdate, hk]
      rw [hstep, List.map_cons, List.map_cons, spansAtL_cons, spansAtL_cons,
        ih hrest hlook, List.append_assoc]

theorem lmMergeStep_spansAt {d : List (Nat × LineMatch)} (hwf : wfDict d)
    (lm : LineMatch) (n : Nat) :
    spansAtL ((lmMergeStep d lm).map Prod.snd) n =
      spansAtL (d.map Prod.snd) n ++ if lm.line_no = n then lm.spans else [] := by
  unfold lmMergeStep
  cases h : dlookup d lm.line_no with
  | none =>
    simp only [List.map_append, spansAtL_append, List.map_cons, List.map_nil]
    rw [spansAtL_cons]
    simp [spansAtL]
  | some cur => exact dinsert_update_spansAt hwf h lm.spans n

theorem lmMerge_spansAt {d : List (Nat × LineMatch)} (hwf : wfDict d)
    (lms : List LineMatch) (n : Nat) :
    spansAtL ((lmMerge d lms).map Prod.snd) n =
      spansAtL (d.map Prod.snd) n ++ spansAtL lms n := by
  induction lms generalizing d with
  | nil => simp [lmMerge, spansAtL]
  | cons lm rest ih =>
    have hstep : lmMerge d (lm :: rest) = lmMerge (lmMergeStep d lm) rest := rfl
    rw [hstep, ih (lmMergeStep_wf hwf lm), lmMergeStep_spansAt hwf lm n,
      spansAtL_cons, List.append_assoc]

theorem dinsert_update_spanLen {d : List (Nat × LineMatch)}
    {k : Nat} {cur : LineMatch} (hcur : dlookup d k = some cur) (sp : List Span) :
    lineSpanTotal ((dinsert d k { cur with spans := cur.spans ++ sp }).map Prod.snd) =
      lineSpanTotal (d.map Prod.snd) + sp.length := by
  induction d with
  | nil => simp [dlookup] at hcur
  | cons p rest ih =>
    obtain ⟨k₁, v₁⟩ := p
    by_cases hk : k₁ = k
    · subst hk
      simp only [dlookup, if_pos rfl] at hcur
      injection hcur with hcur
      subst hcur
      have hstep :
          dinsert ((k₁, v₁) :: rest) k₁ { v₁ with spans := v₁.spans ++ sp } =
            (k₁, { v₁ with spans := v₁.spans ++ sp }) :: rest := by
        simp [dinsert, dupdate]
      rw [hstep, List.map_cons, List.map_cons, lineSpanTotal_cons, lineSpanTotal_cons]
      simp [List.length_append]
      omega
    · have hlook : dlookup rest k = some cur := by
        simpa [dlookup, hk] using hcur
      have hstep :
          dinsert ((k₁, v₁) :: rest) k { cur with spans := cur.spans ++ sp } =
            (k₁, v₁) :: dinsert rest k { cur with spans := cur.spans ++ sp } := by
        simp [dinsert, dupdate, hk]
      rw [hstep, List.map_cons, List.map_cons, lineSpanTotal_cons, lineSpanTotal_cons,
        ih hlook]
      omega

theorem lmMergeStep_spanLen (d : List (Nat × LineMatch)) (lm : LineMatch) :
    lineSpanTotal ((lmMergeStep d lm).map Prod.snd) =
      lineSpanTotal (d.map Prod.snd) + lm.spans.length := by
  unfold lmMergeStep
  cases h : dlookup d lm.line_no with
  | none => simp [lineSpanTotal]
  | some cur => exact dinsert_update_spanLen h lm.spans

theorem lmMerge_spanLen (d : List (Nat × LineMatch)) (lms : List LineMatch) :
    lineSpanTotal ((lmMerge d lms).map Prod.snd) =
      lineSpanTotal (d.map Prod.snd) + lineSpanTotal lms := by
  induction lms generalizing d with
  | nil => simp [lmMerge, lineSpanTotal]
  | cons lm rest ih =>
    have hstep : lmMerge d (lm :: rest) = lmMerge (lmMergeStep d lm) rest := rfl
    rw [hstep, ih (lmMergeStep d lm), lmMergeStep_spanLen, lineSpanTotal_cons]
    omega

theorem foldl_dinsert_eq (lms : List LineMatch) :
    ∀ d : List (Nat × LineMatch),
      (∀ lm ∈ lms, lm.line_no ∉ d.map Prod.fst) →
      ((lms.map fun lm => lm.line_no).Nodup) →
      lms.foldl (fun d lm => dinsert d lm.line_no lm) d =
        d ++ lms.map fun lm => (lm.line_no, lm) := by
  induction lms with
  | nil => simp
  | cons lm rest ih =>
    intro d hdisj hnd
    have h₁ : dlookup d lm.line_no = none :=
      dlookup_eq_none.mpr (hdisj lm (List.mem_cons_self _ _))
    have hstep : dinsert d lm.line_no lm = d ++ [(lm.line_no, lm)] :=
      dinsert_eq_append lm h₁
    simp only [List.foldl_cons, hstep]
    rw [ih (d ++ [(lm.line_no, lm)])
      (by
        intro lm₂ hm
        simp only [List.map_append, List.mem_append, List.map_cons, List.map_nil]
        rintro (h | h)
        · exact hdisj lm₂ (List.mem_cons_of_mem _ hm) h
        · simp at h
          rcases List.nodup_cons.mp hnd with ⟨hn, _⟩
          apply hn
          show lm.line_no ∈ List.map (fun lm => lm.line_no) rest
          rw [← h]
          exact List.mem_map_of_mem (fun lm => lm.line_no) hm)
      (List.nodup_cons.mp hnd).2]
    simp

theorem lmDict_eq {lms : List LineMatch}
    (h : (lms.map fun lm => lm.line_no).Nodup) :
    lmDict lms = lms.map fun lm => (lm.line_no, lm) := by
  unfold lmDict
  rw [foldl_dinsert_eq lms [] (by simp) h]
  simp

/-! ### `combine_with` at the `SearchResult` level -/

theorem combine_with_matchCount (a b : SearchResult) :
    (a.combine_with b).matchCount = a.matchCount + b.matchCount := rfl

theorem combine_with_title (a b : SearchResult) :
    (a.combine_with b).title = a.title := rfl

theorem combine_with_title_spans_perm (a b : SearchResult) :
    (a.combine_with b).title_spans.Perm (a.title_spans ++ b.title_spans) :=
  List.perm_insertionSort spanLe _

theorem combine_with_line_matches_perm (a b : SearchResult) :
    (a.combine_with b).line_matches.Perm
      ((lmMerge (lmDict a.line_matches) b.line_matches).map Prod.snd) :=
  List.perm_insertionSort lmLe _

theorem wfDict_line_nos {d : List (Nat × LineMatch)} (hwf : wfDict d) :
    ((d.map Prod.snd).map fun lm => lm.line_no).Nodup := by
  have : (d.map Prod.snd).map (fun lm => lm.line_no) = d.map Prod.fst := by
    rw [List.map_map]
    exact List.map_congr_left fun p hp => (hwf.2 p hp).symm
  rw [this]
  exact hwf.1

theorem combine_with_linesNodup (a b : SearchResult) :
    linesNodup (a.combine_with b) := by
  unfold linesNodup
  have hperm := (combine_with_line_matches_perm a b).map fun lm => lm.line_no
  exact (wfDict_line_nos (lmMerge_wf (lmDict_wf a.line_matches) b.line_matches)).perm
    hperm.symm

theorem lmDict_map_snd {lms : List LineMatch}
    (h : (lms.map fun lm => lm.line_no).Nodup) :
    (lmDict lms).map Prod.snd = lms := by
  rw [lmDict_eq h, List.map_map]
  exact List.map_id lms

theorem combine_with_lineSpansAt {a : SearchResult} (ha : linesNodup a)
    (b : SearchResult) (n : Nat) :
    (lineSpansAt (a.combine_with b) n).Perm (lineSpansAt a n ++ lineSpansAt b n) := by
  unfold lineSpansAt
  have h₁ := spansAtL_perm (combine_with_line_matches_perm a b) n
  have h₂ := lmMerge_spansAt (lmDict_wf a.line_matches) b.line_matches n
  rw [lmDict_map_snd ha] at h₂
  rw [h₂] at h₁
  exact h₁

theorem combine_with_lineSpanTotal {a : SearchResult} (ha : linesNodup a)
    (b : SearchResult) :
    lineSpanTotal (a.combine_with b).line_matches =
      lineSpanTotal a.line_matches + lineSpanTotal b.line_matches := by
  rw [lineSpanTotal_perm (combine_with_line_matches_perm a b),
    lmMerge_spanLen, lmDict_map_snd ha]

theorem combine_with_srInv {a b : SearchResult} (hia : srInv a) (hib : srInv b)
    (ha : linesNodup a) : srInv (a.combine_with b) := by
  unfold srInv at hia hib ⊢
  rw [combine_with_matchCount, combine_with_lineSpanTotal ha b,
    (combine_with_title_spans_perm a b).length_eq, List.length_append]
  omega

theorem combine_with_sorted (a b : SearchResult) :
    List.Sorted lmLe (a.combine_with b).line_matches :=
  List.sorted_insertionSort lmLe _

/-! ### Every result produced by the index lookup is well formed -/

theorem postingResult_ok (s : Sonnet) (p : Posting) : SRok (postingResult s p) := by
  unfold postingResult
  cases p.line_no with
  | none => exact ⟨by simp [srInv, lineSpanTotal], by simp [linesNodup]⟩
  | some ln => exact ⟨by simp [srInv, lineSpanTotal], by simp [linesNodup]⟩

theorem combine_with_ok {a b : SearchResult} (ha : SRok a) (hb : SRok b) :
    SRok (a.combine_with b) :=
  ⟨combine_with_srInv ha.1 hb.1 ha.2, combine_with_linesNodup a b⟩

theorem rawInner_ok {results : ResMap} (hres : ∀ q ∈ results, SRok q.2)
    (doc_id : Int) (s : Sonnet) (posting : Posting) :
    ∀ q ∈ rawInner doc_id s results posting, SRok q.2 := by
  unfold rawInner
  cases h : dlookup results doc_id with
  | none =>
    exact dinsert_forall (P := fun (k : Int) (v : SearchResult) => SRok v) hres
      (postingResult_ok s posting)
  | some prev =>
    have hprev : SRok prev := hres _ (dlookup_mem h)
    exact dinsert_forall (P := fun (k : Int) (v : SearchResult) => SRok v) hres
      (combine_with_ok hprev (postingResult_ok s posting))

theorem foldl_rawInner_ok {results : ResMap} (hres : ∀ q ∈ results, SRok q.2)
    (doc_id : Int) (s : Sonnet) (postings : List Posting) :
    ∀ q ∈ postings.foldl (rawInner doc_id s) results, SRok q.2 := by
  induction postings generalizing results with
  | nil => exact hres
  | cons p rest ih => exact ih (rawInner_ok hres doc_id s p)

theorem rawOuter_ok {results : ResMap} (hres : ∀ q ∈ results, SRok q.2)
    (index : Index) (p : Int × List Posting) :
    ∀ q ∈ rawOuter index results p, SRok q.2 := by
  unfold rawOuter
  cases dlookup index.sonnets p.1 with
  | none => exact hres
  | some sonnet => exact foldl_rawInner_ok hres p.1 sonnet p.2

theorem rawLookup_ok (index : Index) (token : Str) :
    ∀ q ∈ rawLookup index token, SRok q.2 := by
  unfold rawLookup
  by_cases h : token = []
  · simp [h]
  · rw [if_neg h]
    cases dlookup index.dictionary token with
    | none => simp
    | some postings_list =>
      suffices hs : ∀ results : ResMap, (∀ q ∈ results, SRok q.2) →
          ∀ q ∈ postings_list.foldl (rawOuter index) results, SRok q.2 by
        exact hs [] (by simp)
      induction postings_list with
      | nil => exact fun results hres => hres
      | cons p rest ih =>
        exact fun results hres => ih _ (rawOuter_ok hres index p)

theorem index_search_for_ok (stemmer : Str → Str) (index : Index) (token : Str) :
    ∀ q ∈ Index.search_for stemmer index token, SRok q.2 :=
  rawLookup_ok index _

/-! ### `Sonnet.search_for` is well formed -/

theorem sonnetLineDict_keys_nodup (ps : List Posting) :
    ((sonnetLineDict ps).map Prod.fst).Nodup := by
  suffices hs : ∀ d : List (Nat × List Span), (d.map Prod.fst).Nodup →
      ((ps.foldl sonnetLineDictStep d).map Prod.fst).Nodup by
    exact hs [] (by simp)
  induction ps with
  | nil => exact fun d hd => hd
  | cons p rest ih =>
    intro d hd
    apply ih
    unfold sonnetLineDictStep
    cases p.line_no with
    | none => exact hd
    | some ln => exact dupdate_keys_nodup ln _ hd

theorem sonnet_line_matches_nodup (s : Sonnet) (ps : List Posting) :
    ((List.map
        (fun q : Nat × List Span => (⟨q.1, s.lines.getD (q.1 - 1) [], q.2⟩ : LineMatch))
        (List.insertionSort pairLe (sonnetLineDict ps))).map
      fun lm => lm.line_no).Nodup := by
  rw [List.map_map]
  have hkeys :
      (List.insertionSort pairLe (sonnetLineDict ps)).map
        ((fun lm => lm.line_no) ∘
          fun q : Nat × List Span => (⟨q.1, s.lines.getD (q.1 - 1) [], q.2⟩ : LineMatch)) =
      (List.insertionSort pairLe (sonnetLineDict ps)).map Prod.fst :=
    List.map_congr_left fun q hq => rfl
  rw [hkeys]
  exact (sonnetLineDict_keys_nodup ps).perm
    ((List.perm_insertionSort pairLe _).map Prod.fst).symm

theorem sonnet_search_for_ok (stemmer : Str → Str) (s : Sonnet) (query : Str)
    (index : Index) : SRok (s.search_for stemmer query index) := by
  constructor
  · cases h : dlookup index.dictionary (normalized_stem_token stemmer query) with
    | none => simp [Sonnet.search_for, h, srInv, lineSpanTotal]
    | some postings_list =>
      simp [Sonnet.search_for, h, srInv, lineSpanTotal, List.map_map]
  · cases h : dlookup index.dictionary (normalized_stem_token stemmer query) with
    | none => simp [Sonnet.search_for, h, linesNodup]
    | some postings_list =>
      have := sonnet_line_matches_nodup s ((dlookup postings_list s.id).getD [])
      simpa [Sonnet.search_for, h, linesNodup] using this

/-! ### Claim C3 -/

/-- C3: every `SearchResult` produced by a per-stem index lookup
(`Index.search_for`) or by a per-document search (`Sonnet.search_for`)
satisfies `matchCount = |titleSpans| + Σ|lineMatches[i].spans|` (counted
before any span merging) and carries pairwise-distinct line numbers, and
`SearchResult.combine_with` preserves both facts for two such results
about the same document — so every result in the closure of the three
producing operations satisfies the invariant. -/
theorem matchCount_invariant :
    (∀ (stemmer : Str → Str) (s : Sonnet) (query : Str) (index : Index),
      srInv (s.search_for stemmer query index) ∧
        linesNodup (s.search_for stemmer query index)) ∧
    (∀ (stemmer : Str → Str) (index : Index) (token : Str) (d : Int)
        (sr : SearchResult),
      dlookup (Index.search_for stemmer index token) d = some sr →
        srInv sr ∧ linesNodup sr) ∧
    (∀ a b : SearchResult, srInv a → srInv b → linesNodup a → linesNodup b →
      srInv (a.combine_with b) ∧ linesNodup (a.combine_with b)) := by
  refine ⟨?_, ?_, ?_⟩
  · exact fun stemmer s query index => sonnet_search_for_ok stemmer s query index
  · intro stemmer index token d sr h
    exact index_search_for_ok stemmer index token _ (dlookup_mem h)
  · intro a b hia hib hla hlb
    exact ⟨combine_with_srInv hia hib hla, combine_with_linesNodup a b⟩

/-- Witness for C3 at concrete inputs: the invariant facts evaluated on
the demo corpus, obtained by applying `matchCount_invariant`. -/
theorem matchCount_invariant_witness :
    (srInv demoTheeResult ∧ linesNodup demoTheeResult) ∧
    srInv (demoTheeResult.combine_with demoTheeResult) :=
  ⟨matchCount_invariant.2.1 demoStem demoIndex demoQueryT 1 demoTheeResult (by decide),
    (matchCount_invariant.2.2 demoTheeResult demoTheeResult (by decide) (by decide)
      (by decide) (by decide)).1⟩

/-! ### Claim C5 -/

/-- C5 (amended): `combine_with` is commutative and associative on
`matchCount` for all results about the same document, its output is sorted
by line number, and the multiset of title spans is preserved under either
argument order and association; the per-line-number span multisets are
preserved under argument order and association for results whose line
matches have pairwise distinct line numbers (as all results produced by
the system do). -/
theorem combine_comm_assoc (a b c : SearchResult) :
    (a.combine_with b).matchCount = (b.combine_with a).matchCount ∧
    ((a.combine_with b).combine_with c).matchCount
      = (a.combine_with (b.combine_with c)).matchCount ∧
    (↑(a.combine_with b).title_spans : Multiset Span)
      = ↑(b.combine_with a).title_spans ∧
    (↑((a.combine_with b).combine_with c).title_spans : Multiset Span)
      = ↑(a.combine_with (b.combine_with c)).title_spans ∧
    (linesNodup a → linesNodup b → ∀ n,
      (↑(lineSpansAt (a.combine_with b) n) : Multiset Span)
        = ↑(lineSpansAt (b.combine_with a) n)) ∧
    (linesNodup a → linesNodup b → ∀ n,
      (↑(lineSpansAt ((a.combine_with b).combine_with c) n) : Multiset Span)
        = ↑(lineSpansAt (a.combine_with (b.combine_with c)) n)) ∧
    List.Sorted lmLe (a.combine_with b).line_matches := by
  refine ⟨?_, ?_, ?_, ?_, ?_, ?_, combine_with_sorted a b⟩
  · simp only [combine_with_matchCount]; omega
  · simp only [combine_with_matchCount]; omega
  · exact Multiset.coe_eq_coe.mpr
      ((combine_with_title_spans_perm a b).trans
        (List.perm_append_comm.trans (combine_with_title_spans_perm b a).symm))
  · apply Multiset.coe_eq_coe.mpr
    have h₁ := (combine_with_title_spans_perm (a.combine_with b) c).trans
      ((combine_with_title_spans_perm a b).append (List.Perm.refl c.title_spans))
    have h₂ := (combine_with_title_spans_perm a (b.combine_with c)).trans
      ((List.Perm.refl a.title_spans).append (combine_with_title_spans_perm b c))
    rw [List.append_assoc] at h₁
    exact h₁.trans h₂.symm
  · intro ha hb n
    exact Multiset.coe_eq_coe.mpr
      ((combine_with_lineSpansAt ha b n).trans
        (List.perm_append_comm.trans (combine_with_lineSpansAt hb a n).symm))
  · intro ha hb n
    apply Multiset.coe_eq_coe.mpr
    have h₁ := (combine_with_lineSpansAt (combine_with_linesNodup a b) c n).trans
      ((combine_with_lineSpansAt ha b n).append (List.Perm.refl (lineSpansAt c n)))
    have h₂ := (combine_with_lineSpansAt ha (b.combine_with c) n).trans
      ((List.Perm.refl (lineSpansAt a n)).append (combine_with_lineSpansAt hb c n))
    rw [List.append_assoc] at h₁
    exact h₁.trans h₂.symm

/-- C5 counterexample: as stated over *all* results about the same
document the claim is false — when the left operand holds two line
matches sharing a line number (a representation §4.3 of the spec
explicitly allows), `combine_with`'s dict comprehension keeps only the
last one, so the per-line span multiset differs between the two argument
orders. -/
theorem combine_comm_cex :
    ¬ ((↑(lineSpansAt (dupLineResult.combine_with emptyResult) 1) : Multiset Span)
        = ↑(lineSpansAt (emptyResult.combine_with dupLineResult) 1)) := by decide

/-- Witness for C5 at concrete inputs, applying `combine_comm_assoc`. -/
theorem combine_comm_assoc_witness :
    (↑(lineSpansAt (demoTheeResult.combine_with emptyResult) 1) : Multiset Span)
      = ↑(lineSpansAt (emptyResult.combine_with demoTheeResult) 1) :=
  (combine_comm_assoc demoTheeResult emptyResult emptyResult).2.2.2.2.1
    (by decide) (by decide) 1

/-! ### Claim C2 -/

/-- C2 (amended): the per-word per-document results the search engine
uses for a query word `w` are the raw dictionary lookup keyed by
`stem(stem(w))`, not by `stem(w)`: `Searcher.search` applies the injected
normalize-then-stem function once to the word, and `Index.search_for`
applies it a second time to the token it receives; the claim's
single-application lookup is obtained exactly when the composite
normalize-then-stem function is idempotent on the word. -/
theorem search_for_stems_twice (stemmer : Str → Str) (index : Index) (w : Str) :
    Index.search_for stemmer index (normalized_stem_token stemmer w) =
      rawLookup index
        (normalized_stem_token stemmer (normalized_stem_token stemmer w)) ∧
    (normalized_stem_token stemmer (normalized_stem_token stemmer w)
        = normalized_stem_token stemmer w →
      Index.search_for stemmer index (normalized_stem_token stemmer w) =
        rawLookup index (normalized_stem_token stemmer w)) := by
  constructor
  · rfl
  · intro h
    show rawLookup index _ = _
    rw [h]

/-- C2 counterexample: with a non-idempotent stemmer (like Porter) the
per-word results the engine uses differ from the index lookup keyed by
`stem(w)`: for the word `thee` under the drop-last-character stemmer the
engine looks up `stem(stem(thee)) = th` (unindexed, empty mapping) while
the claim's lookup keyed by `stem(thee) = the` is nonempty. -/
theorem search_for_single_stem_cex :
    ¬ (Index.search_for dropStem dropIndex (normalized_stem_token dropStem demoQueryT) =
        rawLookup dropIndex (normalized_stem_token dropStem demoQueryT)) := by decide

/-- Witness for C2's amended theorem: with the identity stemmer the
double-stemmed lookup coincides with the single-stemmed one. -/
theorem search_for_stems_twice_witness :
    Index.search_for demoStem demoIndex (normalized_stem_token demoStem demoQueryT) =
      rawLookup demoIndex (normalized_stem_token demoStem demoQueryT) :=
  (search_for_stems_twice demoStem demoIndex demoQueryT).2 (by decide)

/-! ### Claim C9 -/

/-- C9 (amended): a corpus record whose title does not contain a
parseable identifying number makes document construction fail fast with a
generic Python builtin error (`IndexError` for a title with fewer than
two words, `ValueError` for a non-numeric second word) — not with a
distinct `MalformedDocumentError`, which the code does not define; no
default id is ever assigned (a successfully built sonnet's id is exactly
the parsed title number), and corpus loading stops at the first malformed
record without returning a partially built corpus. -/
theorem malformed_title_fails_fast :
    (∀ (data : SonnetData) (e : PyError), titleNumber data.1 = Except.error e →
      sonnetInit data = Except.error e) ∧
    (∀ (data : SonnetData) (s : Sonnet), sonnetInit data = Except.ok s →
      titleNumber data.1 = Except.ok s.id ∧ s.title = data.1 ∧ s.lines = data.2) ∧
    (∀ (records : List SonnetData) (data : SonnetData) (e : PyError),
      data ∈ records → titleNumber data.1 = Except.error e →
      ∃ e₂, loadCorpus records = Except.error e₂) := by
  refine ⟨?_, ?_, ?_⟩
  · intro data e h
    simp [sonnetInit, h]
  · intro data s h
    cases ht : titleNumber data.1 with
    | error e => simp [sonnetInit, ht] at h
    | ok n =>
      simp [sonnetInit, ht] at h
      subst h
      exact ⟨rfl, rfl, rfl⟩
  · intro records
    induction records with
    | nil => intro data e h; simp at h
    | cons r rest ih =>
      intro data e hmem ht
      rcases List.mem_cons.mp hmem with h | h
      · subst h
        have := by
          have h₁ : sonnetInit data = Except.error e := by simp [sonnetInit, ht]
          exact h₁
        exact ⟨e, by simp [loadCorpus, this]⟩
      · cases hr : sonnetInit r with
        | error e₁ => exact ⟨e₁, by simp [loadCorpus, hr]⟩
        | ok s =>
          rcases ih data e h ht with ⟨e₂, he₂⟩
          exact ⟨e₂, by simp [loadCorpus, hr, he₂]⟩

/-- C9 counterexample: the claim asserts a distinct
`MalformedDocumentError`; the code raises the generic builtins instead
(`PyError` enumerates exactly what `Sonnet.__init__` can raise — the code
defines no error class of its own): a one-word title raises `IndexError`,
a non-numeric second word raises `ValueError`. -/
theorem malformed_title_generic_error_cex :
    sonnetInit badRecord = Except.error PyError.indexError ∧
    sonnetInit badRecordValue = Except.error PyError.valueError ∧
    loadCorpus [badRecord] = Except.error PyError.indexError :=
  ⟨rfl, rfl, rfl⟩

/-- Witness for C9's amended theorem at concrete records. -/
theorem malformed_title_fails_fast_witness :
    sonnetInit badRecord = Except.error PyError.indexError ∧
    (titleNumber demoTitle = Except.ok 1 ∧ demoSonnet.title = demoTitle ∧
      demoSonnet.lines = [demoLine]) ∧
    ∃ e₂, loadCorpus [badRecord] = Except.error e₂ :=
  ⟨malformed_title_fails_fast.1 badRecord PyError.indexError rfl,
    malformed_title_fails_fast.2.1 (demoTitle, [demoLine]) demoSonnet rfl,
    malformed_title_fails_fast.2.2 [badRecord] badRecord PyError.indexError
      (by simp) rfl⟩

/-! ### Claim C1 -/

/-- C1 (code-bug demonstration): the seeding test of `Searcher.search` is
`if not combined_results` — emptiness of the running mapping, not "is this
the first word".  An AND query whose unindexed word comes first leaves the
running mapping empty, and the next word *re-seeds* it, so `zzz thee`
in AND mode returns the full result for `thee` even though `zzz`'s
per-word mapping is empty and contains no document at all; the claim
(and the intended AND semantics — a document must match every query word)
requires the empty result list.  `Searcher.search_map` is the final
document-keyed mapping, `Searcher.search` the returned list. -/
theorem and_unindexed_word_reseeds :
    Index.search_for demoStem demoIndex (normalized_stem_token demoStem demoWordZ) = [] ∧
    Searcher.search_map demoStem demoIndex demoQueryZT AND_MODE = [(1, demoTheeResult)] ∧
    Searcher.search demoStem demoIndex demoQueryZT AND_MODE = [demoTheeResult] := by
  decide

/-! ### Key distinctness of the per-word result mappings -/

theorem rawInner_keysNodup {results : ResMap} (h : keysNodup results)
    (doc_id : Int) (s : Sonnet) (p : Posting) :
    keysNodup (rawInner doc_id s results p) := by
  unfold rawInner keysNodup
  cases dlookup results doc_id <;> exact dinsert_keys_nodup _ _ h

theorem foldl_rawInner_keysNodup {results : ResMap} (h : keysNodup results)
    (doc_id : Int) (s : Sonnet) (ps : List Posting) :
    keysNodup (ps.foldl (rawInner doc_id s) results) := by
  induction ps generalizing results with
  | nil => exact h
  | cons q rest ih => exact ih (rawInner_keysNodup h doc_id s q)

theorem rawOuter_keysNodup {results : ResMap} (h : keysNodup results)
    (index : Index) (p : Int × List Posting) :
    keysNodup (rawOuter index results p) := by
  unfold rawOuter
  cases dlookup index.sonnets p.1 with
  | none => exact h
  | some sonnet => exact foldl_rawInner_keysNodup h p.1 sonnet p.2

theorem rawLookup_keysNodup (index : Index) (token : Str) :
    keysNodup (rawLookup index token) := by
  unfold rawLookup
  by_cases h : token = []
  · simp [h, keysNodup]
  · rw [if_neg h]
    cases dlookup index.dictionary token with
    | none => simp [keysNodup]
    | some postings_list =>
      suffices hs : ∀ results : ResMap, keysNodup results →
          keysNodup (postings_list.foldl (rawOuter index) results) by
        exact hs [] (by simp [keysNodup])
      induction postings_list with
      | nil => exact fun results hres => hres
      | cons p rest ih =>
        exact fun results hres => ih _ (rawOuter_keysNodup hres index p)

theorem index_search_for_keysNodup (stemmer : Str → Str) (index : Index)
    (token : Str) : keysNodup (Index.search_for stemmer index token) :=
  rawLookup_keysNodup index _

/-! ### The `OR` fold and the `AND` pass -/

theorem orStep_keysNodup {c : ResMap} (h : keysNodup c) (entry : Int × SearchResult) :
    keysNodup (orStep c entry) := by
  unfold orStep
  cases hl : dlookup c entry.1 with
  | some u => exact dinsert_keys_nodup _ _ h
  | none =>
    have hk := dlookup_eq_none.mp hl
    unfold keysNodup at h ⊢
    simp [List.nodup_append, h, hk]

theorem orFold_keysNodup {rs : ResMap} {c : ResMap} (h : keysNodup c) :
    keysNodup (rs.foldl orStep c) := by
  induction rs generalizing c with
  | nil => exact h
  | cons entry rest ih => exact ih (orStep_keysNodup h entry)

theorem orStep_lookup_ne {c : ResMap} {entry : Int × SearchResult} {k : Int}
    (h : k ≠ entry.1) : dlookup (orStep c entry) k = dlookup c k := by
  unfold orStep
  cases hl : dlookup c entry.1 with
  | some u => exact dlookup_dinsert_ne c _ h
  | none =>
    rw [dlookup_append]
    cases hck : dlookup c k with
    | some v => rfl
    | none => simp [dlookup, show ¬entry.1 = k from fun hh => h hh.symm]

theorem orFold_lookup_not_mem {rs : ResMap} {c : ResMap} {k : Int}
    (h : k ∉ rs.map Prod.fst) : dlookup (rs.foldl orStep c) k = dlookup c k := by
  induction rs generalizing c with
  | nil => rfl
  | cons entry rest ih =>
    simp only [List.map_cons, List.mem_cons] at h
    push_neg at h
    rw [List.foldl_cons, ih h.2, orStep_lookup_ne h.1]

theorem orFold_lookup_mem {rs : ResMap} (hnd : keysNodup rs) {c : ResMap}
    {k : Int} {v : SearchResult} (h : dlookup rs k = some v) :
    dlookup (rs.foldl orStep c) k =
      some (match dlookup c k with
        | some u => u.combine_with v
        | none => v) := by
  induction rs generalizing c with
  | nil => simp [dlookup] at h
  | cons entry rest ih =>
    obtain ⟨k₁, v₁⟩ := entry
    by_cases hk : k₁ = k
    · subst hk
      simp only [dlookup, if_pos rfl] at h
      injection h with h
      subst h
      have hnotin : k₁ ∉ rest.map Prod.fst := (List.nodup_cons.mp hnd).1
      rw [List.foldl_cons, orFold_lookup_not_mem hnotin]
      unfold orStep
      cases hck : dlookup c k₁ with
      | some u => simp [dlookup_dinsert_self]
      | none =>
        rw [dlookup_append, hck]
        simp [dlookup]
    · simp only [dlookup, if_neg hk] at h
      have hrest : keysNodup rest := (List.nodup_cons.mp hnd).2
      rw [List.foldl_cons, ih hrest h, orStep_lookup_ne (fun hh => hk hh.symm)]

theorem andStep_keys_sublist (c r : ResMap) :
    ((andStep c r).map Prod.fst).Sublist (c.map Prod.fst) := by
  induction c with
  | nil => simp [andStep]
  | cons p rest ih =>
    unfold andStep at ih ⊢
    rw [List.filterMap_cons]
    cases dlookup r p.1 with
    | none => exact ih.trans (List.sublist_cons_self _ _)
    | some v => exact List.Sublist.cons₂ _ ih

theorem andStep_keysNodup {c : ResMap} (h : keysNodup c) (r : ResMap) :
    keysNodup (andStep c r) :=
  h.sublist (andStep_keys_sublist c r)

theorem andStep_lookup {c : ResMap} (hnd : keysNodup c) (r : ResMap) (k : Int) :
    dlookup (andStep c r) k =
      match dlookup c k, dlookup r k with
      | some u, some v => some (u.combine_with v)
      | _, _ => none := by
  induction c with
  | nil => simp [andStep, dlookup]
  | cons p rest ih =>
    obtain ⟨k₁, v₁⟩ := p
    have hrest : keysNodup rest := (List.nodup_cons.mp hnd).2
    unfold andStep at ih ⊢
    rw [List.filterMap_cons]
    by_cases hk : k₁ = k
    · subst hk
      have hnotin : k₁ ∉ rest.map Prod.fst := (List.nodup_cons.mp hnd).1
      have hnone : dlookup (rest.filterMap fun p =>
          match dlookup r p.1 with
          | some rr => some (p.1, p.2.combine_with rr)
          | none => none) k₁ = none := by
        apply dlookup_eq_none.mpr
        intro hmem
        exact hnotin (((andStep_keys_sublist rest r).subset) hmem)
      cases hr : dlookup r k₁ with
      | none => simp [dlookup, hr, hnone]
      | some v => simp [dlookup, hr]
    · cases hr : dlookup r k₁ with
      | none => simp [dlookup, hk, ih hrest]
      | some v => simp [dlookup, hk, ih hrest]

/-! ### The two `searchStep` branches -/

theorem searchStep_and (stemmer : Str → Str) (index : Index) (cA : ResMap) (w : Str) :
    searchStep stemmer index AND_MODE cA w =
      if cA = [] then
        Index.search_for stemmer index (normalized_stem_token stemmer w)
      else andStep cA (Index.search_for stemmer index (normalized_stem_token stemmer w)) := by
  unfold searchStep
  by_cases h : cA = [] <;> simp [h, show ¬(AND_MODE = OR_MODE) by decide]

theorem searchStep_or (stemmer : Str → Str) (index : Index) (cO : ResMap) (w : Str) :
    searchStep stemmer index OR_MODE cO w =
      if cO = [] then
        Index.search_for stemmer index (normalized_stem_token stemmer w)
      else (Index.search_for stemmer index (normalized_stem_token stemmer w)).foldl
        orStep cO := by
  unfold searchStep
  by_cases h : cO = [] <;> simp [h]

/-! ### Claim C4 -/

theorem search_and_le_or_aux (stemmer : Str → Str) (index : Index)
    (words : List Str) :
    ∀ cA cO : ResMap, keysNodup cA → keysNodup cO →
      (∀ (k : Int) (vA : SearchResult), dlookup cA k = some vA →
        ∃ vO, dlookup cO k = some vO ∧ vA.matchCount ≤ vO.matchCount) →
      keysNodup (words.foldl (searchStep stemmer index AND_MODE) cA) ∧
      keysNodup (words.foldl (searchStep stemmer index OR_MODE) cO) ∧
      (∀ (k : Int) (vA : SearchResult),
        dlookup (words.foldl (searchStep stemmer index AND_MODE) cA) k = some vA →
        ∃ vO, dlookup (words.foldl (searchStep stemmer index OR_MODE) cO) k = some vO ∧
          vA.matchCount ≤ vO.matchCount) := by
  induction words with
  | nil => exact fun cA cO hA hO hle => ⟨hA, hO, hle⟩
  | cons w rest ih =>
    intro cA cO hA hO hle
    simp only [List.foldl_cons, searchStep_and, searchStep_or]
    set r := Index.search_for stemmer index (normalized_stem_token stemmer w) with hr
    have hndr : keysNodup r := index_search_for_keysNodup stemmer index _
    by_cases hAe : cA = []
    · by_cases hOe : cO = []
      · rw [if_pos hAe, if_pos hOe]
        refine ih r r hndr hndr ?_
        intro k vA h
        exact ⟨vA, h, Nat.le_refl _⟩
      · rw [if_pos hAe, if_neg hOe]
        refine ih r (r.foldl orStep cO) hndr (orFold_keysNodup hO) ?_
        intro k vA h
        rw [orFold_lookup_mem hndr h]
        cases hck : dlookup cO k with
        | some u =>
          exact ⟨u.combine_with vA, rfl, by rw [combine_with_matchCount]; omega⟩
        | none => exact ⟨vA, rfl, Nat.le_refl _⟩
    · have hOne : cO ≠ [] := by
        obtain ⟨p, rest₂⟩ : ∃ p rest₂, cA = p :: rest₂ := by
          cases cA with
          | nil => exact absurd rfl hAe
          | cons p rest₂ => exact ⟨p, rest₂, rfl⟩
        obtain ⟨rest₂, hsplit⟩ := rest₂
        have hhead : dlookup cA p.1 = some p.2 := by
          rw [hsplit]; simp [dlookup]
        rcases hle p.1 p.2 hhead with ⟨vO, hvO, _⟩
        intro hOe
        rw [hOe] at hvO
        simp [dlookup] at hvO
      rw [if_neg hAe, if_neg hOne]
      refine ih (andStep cA r) (r.foldl orStep cO) (andStep_keysNodup hA r)
        (orFold_keysNodup hO) ?_
      intro k vA h
      rw [andStep_lookup hA r k] at h
      cases hck : dlookup cA k with
      | none => rw [hck] at h; simp at h
      | some u =>
        rw [hck] at h
        cases hrk : dlookup r k with
        | none => rw [hrk] at h; simp at h
        | some v =>
          rw [hrk] at h
          simp at h
          subst h
          rcases hle k u hck with ⟨vO, hvO, hleu⟩
          rw [orFold_lookup_mem hndr hrk, hvO]
          exact ⟨vO.combine_with v, rfl, by
            rw [combine_with_matchCount, combine_with_matchCount]; omega⟩

/-- C4: for the same corpus, index and query, every document id present in
the AND-mode result mapping is also present in the OR-mode result mapping,
with an OR-mode `matchCount` at least as large as the AND-mode one. -/
theorem and_subset_or (stemmer : Str → Str) (index : Index) (query : Str)
    (d : Int) (srA : SearchResult)
    (h : dlookup (Searcher.search_map stemmer index query AND_MODE) d = some srA) :
    ∃ srO, dlookup (Searcher.search_map stemmer index query OR_MODE) d = some srO ∧
      srA.matchCount ≤ srO.matchCount := by
  have haux := search_and_le_or_aux stemmer index (pySplit query) [] []
    (by simp [keysNodup]) (by simp [keysNodup])
    (by intro k vA hh; simp [dlookup] at hh)
  exact haux.2.2 d srA h

/-- Witness for C4 at a concrete corpus and query, applying
`and_subset_or`. -/
theorem and_subset_or_witness :
    ∃ srO, dlookup (Searcher.search_map demoStem demoIndex demoQueryT OR_MODE) 1
        = some srO ∧ demoTheeResult.matchCount ≤ srO.matchCount :=
  and_subset_or demoStem demoIndex demoQueryT 1 demoTheeResult (by decide)

/-! ### Claim C6: the span merger -/

theorem coveredBy_nil (i : Nat) : ¬coveredBy [] i := by
  simp [coveredBy]

theorem coveredBy_cons (sp : Span) (l : List Span) (i : Nat) :
    coveredBy (sp :: l) i ↔ covers sp i ∨ coveredBy l i := by
  simp [coveredBy]

theorem coveredBy_perm {l l₂ : List Span} (h : l.Perm l₂) (i : Nat) :
    coveredBy l i ↔ coveredBy l₂ i := by
  unfold coveredBy
  constructor
  · rintro ⟨sp, hm, hc⟩; exact ⟨sp, h.mem_iff.mp hm, hc⟩
  · rintro ⟨sp, hm, hc⟩; exact ⟨sp, h.mem_iff.mpr hm, hc⟩

theorem mergeLoop_ne_nil (rest : List Span) (curS curE : Nat) :
    mergeLoop curS curE rest ≠ [] := by
  induction rest generalizing curS curE with
  | nil => simp [mergeLoop]
  | cons hd tl ih =>
    obtain ⟨s, e⟩ := hd
    by_cases hm : s ≤ curE <;> simp [mergeLoop, hm, ih]

theorem mergeLoop_spec (rest : List Span) :
    ∀ curS curE : Nat, List.Pairwise spanLe rest →
      (∀ sp ∈ rest, spanLe (curS, curE) sp) →
      (∀ sp ∈ mergeLoop curS curE rest, spanLe (curS, curE) sp) ∧
      List.Pairwise spanLe (mergeLoop curS curE rest) ∧
      List.Pairwise (fun x y : Span => x.2 < y.1) (mergeLoop curS curE rest) ∧
      (∀ i, coveredBy (mergeLoop curS curE rest) i ↔
        (covers (curS, curE) i ∨ coveredBy rest i)) := by
  induction rest with
  | nil =>
    intro curS curE hpw hinv
    refine ⟨?_, ?_, ?_, ?_⟩
    · intro sp hsp
      simp [mergeLoop] at hsp
      subst hsp
      unfold spanLe; omega
    · simp [mergeLoop]
    · simp [mergeLoop]
    · intro i
      simp [mergeLoop, coveredBy_cons, coveredBy_nil]
  | cons hd tl ih =>
    intro curS curE hpw hinv
    obtain ⟨s, e⟩ := hd
    have hhead : spanLe (curS, curE) (s, e) := hinv _ (List.mem_cons_self _ _)
    have htl_pw : List.Pairwise spanLe tl := hpw.tail
    have hhd_rel : ∀ sp ∈ tl, spanLe (s, e) sp := (List.pairwise_cons.mp hpw).1
    by_cases hm : s ≤ curE
    · -- merge the span into the current one
      have hinv₂ : ∀ sp ∈ tl, spanLe (curS, max curE e) sp := by
        intro sp hsp
        have h₁ := hinv sp (List.mem_cons_of_mem _ hsp)
        have h₂ := hhd_rel sp hsp
        unfold spanLe at h₁ h₂ hhead ⊢
        omega
      obtain ⟨ih₁, ih₂, ih₃, ih₄⟩ := ih curS (max curE e) htl_pw hinv₂
      rw [show mergeLoop curS curE ((s, e) :: tl)
          = mergeLoop curS (max curE e) tl by simp [mergeLoop, hm]]
      refine ⟨?_, ih₂, ih₃, ?_⟩
      · intro sp hsp
        have := ih₁ sp hsp
        unfold spanLe at this ⊢
        omega
      · intro i
        rw [ih₄ i, coveredBy_cons]
        have hiff : covers (curS, max curE e) i ↔
            covers (curS, curE) i ∨ covers (s, e) i := by
          unfold spanLe at hhead
          unfold covers
          omega
        rw [hiff]
        tauto
    · -- gap: emit the current span
      obtain ⟨ih₁, ih₂, ih₃, ih₄⟩ := ih s e htl_pw hhd_rel
      rw [show mergeLoop curS curE ((s, e) :: tl)
          = (curS, curE) :: mergeLoop s e tl by simp [mergeLoop, hm]]
      have hstarts : ∀ sp ∈ mergeLoop s e tl, spanLe (curS, curE) sp := by
        intro sp hsp
        have := ih₁ sp hsp
        unfold spanLe at this hhead ⊢
        omega
      refine ⟨?_, ?_, ?_, ?_⟩
      · intro sp hsp
        rcases List.mem_cons.mp hsp with h | h
        · subst h; unfold spanLe; omega
        · exact hstarts sp h
      · exact List.pairwise_cons.mpr ⟨hstarts, ih₂⟩
      · refine List.pairwise_cons.mpr ⟨?_, ih₃⟩
        intro sp hsp
        have := ih₁ sp hsp
        unfold spanLe at this
        omega
      · intro i
        rw [coveredBy_cons, ih₄ i, coveredBy_cons]

theorem sortSpans_sorted (l : List Span) : List.Pairwise spanLe (sortSpans l) :=
  List.sorted_insertionSort spanLe l

theorem sortSpans_perm (l : List Span) : (sortSpans l).Perm l :=
  List.perm_insertionSort spanLe l

theorem sortSpans_eq_of_perm {l l₂ : List Span} (h : l.Perm l₂) :
    sortSpans l = sortSpans l₂ :=
  List.eq_of_perm_of_sorted ((sortSpans_perm l).trans (h.trans (sortSpans_perm l₂).symm))
    (sortSpans_sorted l) (sortSpans_sorted l₂)

theorem mergeLoop_of_gapped {l : List Span}
    (h : List.Pairwise (fun x y : Span => x.2 < y.1) l) :
    ∀ s e : Nat, (∀ sp ∈ l, e < sp.1) → mergeLoop s e l = (s, e) :: l := by
  induction l with
  | nil => intro s e _; rfl
  | cons hd tl ih =>
    intro s e hgap
    obtain ⟨s₁, e₁⟩ := hd
    have h₁ : e < s₁ := hgap _ (List.mem_cons_self _ _)
    rw [show mergeLoop s e ((s₁, e₁) :: tl) = (s, e) :: mergeLoop s₁ e₁ tl by
      simp [mergeLoop]; omega]
    rw [ih h.tail s₁ e₁ (fun sp hsp => (List.pairwise_cons.mp h).1 sp hsp)]

/-- C6: the span-merge step of `ansi_highlight` (sort, then fold any span
whose start is `<=` the current merged span's end into it) produces a
start-sorted list of pairwise non-overlapping spans (each span ends
strictly before the next begins) whose covered positions are exactly the
covered positions of the input; it is idempotent, and its output depends
only on the multiset of input spans, not their order. -/
theorem mergeSpans_correct (l l₂ : List Span) :
    List.Pairwise (fun x y : Span => x.1 ≤ y.1) (mergeSpans l) ∧
    List.Pairwise (fun x y : Span => x.2 < y.1) (mergeSpans l) ∧
    (∀ i, coveredBy (mergeSpans l) i ↔ coveredBy l i) ∧
    mergeSpans (mergeSpans l) = mergeSpans l ∧
    (l.Perm l₂ → mergeSpans l = mergeSpans l₂) := by
  have hperm := sortSpans_perm l
  have hsorted := sortSpans_sorted l
  have hmain :
      List.Pairwise spanLe (mergeSpans l) ∧
      List.Pairwise (fun x y : Span => x.2 < y.1) (mergeSpans l) ∧
      (∀ i, coveredBy (mergeSpans l) i ↔ coveredBy l i) := by
    unfold mergeSpans
    cases hs : sortSpans l with
    | nil =>
      have h0 : ([] : List Span).Perm l := by rw [← hs]; exact hperm
      have : l = [] := h0.symm.eq_nil
      subst this
      refine ⟨by simp, by simp, ?_⟩
      intro i
      simp [coveredBy_nil]
    | cons hd tl =>
      obtain ⟨s, e⟩ := hd
      rw [hs] at hsorted hperm
      obtain ⟨h₁, h₂, h₃, h₄⟩ := mergeLoop_spec tl s e hsorted.tail
        (List.pairwise_cons.mp hsorted).1
      refine ⟨h₂, h₃, ?_⟩
      intro i
      rw [h₄ i, ← coveredBy_cons, coveredBy_perm hperm]
  obtain ⟨hsort, hgap, hcov⟩ := hmain
  refine ⟨?_, hgap, hcov, ?_, ?_⟩
  · exact hsort.imp fun {x y} h => by unfold spanLe at h; omega
  · -- idempotence
    cases hout : mergeSpans l with
    | nil => rfl
    | cons o tail =>
      obtain ⟨o₁, o₂⟩ := o
      rw [hout] at hsort hgap
      have hss : sortSpans ((o₁, o₂) :: tail) = (o₁, o₂) :: tail :=
        List.Sorted.insertionSort_eq hsort
      unfold mergeSpans
      rw [hss]
      exact mergeLoop_of_gapped hgap.tail o₁ o₂
        (fun sp hsp => (List.pairwise_cons.mp hgap).1 sp hsp)
  · intro hp
    unfold mergeSpans
    rw [sortSpans_eq_of_perm hp]

/-- Witness for C6's order-independence at the spec's §8 scenario spans. -/
theorem mergeSpans_correct_witness :
    mergeSpans [(7, 11), (9, 15)] = mergeSpans [(9, 15), (7, 11)] ∧
    mergeSpans [(7, 11), (9, 15)] = [(7, 15)] :=
  ⟨(mergeSpans_correct [(7, 11), (9, 15)] [(9, 15), (7, 11)]).2.2.2.2 (by decide),
    by decide⟩

/-! ### Claim C7: the tokenizer -/

theorem take_takeWhile_length (p : Char → Bool) (l : Str) :
    l.take (l.takeWhile p).length = l.takeWhile p :=
  (List.prefix_iff_eq_take.mp (List.takeWhile_prefix p)).symm

theorem drop_takeWhile_length (p : Char → Bool) : ∀ l : Str,
    l.drop (l.takeWhile p).length = l.dropWhile p
  | [] => rfl
  | c :: rest => by
    by_cases h : p c
    · simp only [List.takeWhile_cons_of_pos h, List.dropWhile_cons_of_pos h,
        List.length_cons, List.drop_succ_cons]
      exact drop_takeWhile_length p rest
    · simp [List.takeWhile, List.dropWhile, h]

theorem tokenize_shape_aux :
    ∀ (fuel : Nat) (l : Str), l.length ≤ fuel → ∀ p ∈ tokenize l,
      p.1 ≠ [] ∧ (∀ ch ∈ p.1, notWs ch) ∧ (l.drop p.2).take p.1.length = p.1 := by
  intro fuel
  induction fuel with
  | zero =>
    intro l hl p hp
    have : l = [] := List.eq_nil_of_length_eq_zero (Nat.le_zero.mp hl)
    subst this
    simp [tokenize_nil] at hp
  | succ f ih =>
    intro l hl p hp
    cases l with
    | nil => simp [tokenize_nil] at hp
    | cons c rest =>
      simp only [List.length_cons, Nat.add_le_add_iff_right] at hl
      by_cases hws : pyIsSpace c
      · rw [tokenize_cons_ws rest hws] at hp
        rcases List.mem_map.mp hp with ⟨q, hq, hqe⟩
        obtain ⟨hne, hch, hrt⟩ := ih rest hl q hq
        subst hqe
        exact ⟨hne, hch, by simpa [List.drop_succ_cons] using hrt⟩
      · rw [tokenize_cons_tok rest hws] at hp
        rcases List.mem_cons.mp hp with hp | hp
        · subst hp
          refine ⟨by simp, ?_, ?_⟩
          · intro ch hch
            rcases List.mem_cons.mp hch with h | h
            · subst h; simp [notWs, hws]
            · exact List.mem_takeWhile_imp h
          · show ((c :: rest).drop 0).take (c :: rest.takeWhile notWs).length
              = c :: rest.takeWhile notWs
            rw [List.drop_zero, List.length_cons, List.take_succ_cons,
              take_takeWhile_length]
        · rcases List.mem_map.mp hp with ⟨q, hq, hqe⟩
          have hdwlen : (rest.dropWhile notWs).length ≤ f :=
            Nat.le_trans ((List.dropWhile_suffix notWs).length_le) hl
          obtain ⟨hne, hch, hrt⟩ := ih (rest.dropWhile notWs) hdwlen q hq
          subst hqe
          refine ⟨hne, hch, ?_⟩
          show ((c :: rest).drop (q.2 + (c :: rest.takeWhile notWs).length)).take
              q.1.length = q.1
          have hidx : q.2 + (c :: rest.takeWhile notWs).length
              = ((rest.takeWhile notWs).length + q.2) + 1 := by
            simp [List.length_cons]; omega
          rw [hidx, List.drop_succ_cons, ← List.drop_drop, drop_takeWhile_length]
          exact hrt

theorem tokenize_pairwise_aux :
    ∀ (fuel : Nat) (l : Str), l.length ≤ fuel →
      List.Pairwise (fun p q : Str × Nat => p.2 + p.1.length ≤ q.2) (tokenize l) := by
  intro fuel
  induction fuel with
  | zero =>
    intro l hl
    have : l = [] := List.eq_nil_of_length_eq_zero (Nat.le_zero.mp hl)
    subst this
    simp [tokenize_nil]
  | succ f ih =>
    intro l hl
    cases l with
    | nil => simp [tokenize_nil]
    | cons c rest =>
      simp only [List.length_cons, Nat.add_le_add_iff_right] at hl
      by_cases hws : pyIsSpace c
      · rw [tokenize_cons_ws rest hws]
        rw [List.pairwise_map]
        refine (ih rest hl).imp ?_
        intro a b h
        dsimp only
        omega
      · rw [tokenize_cons_tok rest hws]
        have hdwlen : (rest.dropWhile notWs).length ≤ f :=
          Nat.le_trans ((List.dropWhile_suffix notWs).length_le) hl
        refine List.pairwise_cons.mpr ⟨?_, ?_⟩
        · intro q hq
          rcases List.mem_map.mp hq with ⟨q₀, _, hqe⟩
          subst hqe
          dsimp only
          omega
        · rw [List.pairwise_map]
          refine (ih _ hdwlen).imp ?_
          intro a b h
          dsimp only
          omega

theorem tokenize_start_char (l : Str) (p : Str × Nat) (hp : p ∈ tokenize l) :
    ∃ ch, l.get? p.2 = some ch ∧ notWs ch := by
  obtain ⟨hne, hch, hrt⟩ := tokenize_shape_aux l.length l (Nat.le_refl _) p hp
  cases hdl : l.drop p.2 with
  | nil =>
    rw [hdl] at hrt
    simp at hrt
    exact absurd hrt hne
  | cons d ds =>
    have hget : l.get? p.2 = some d := by
      have h0 := List.get?_drop l p.2 0
      rw [hdl] at h0
      simpa using h0.symm
    cases hp1 : p.1 with
    | nil => exact absurd hp1 hne
    | cons a t =>
      rw [hdl, hp1] at hrt
      rw [List.length_cons, List.take_succ_cons] at hrt
      injection hrt with h₁ h₂
      subst h₁
      exact ⟨d, hget, hch d (by rw [hp1]; exact List.mem_cons_self _ _)⟩

theorem pyIsSpace_of_dropWhile_head {l : Str} {d : Char} {ds : Str}
    (h : l.dropWhile notWs = d :: ds) : pyIsSpace d := by
  have hh := List.head?_dropWhile_not notWs l
  rw [h] at hh
  simp only [List.head?_cons] at hh
  simpa [notWs] using hh

theorem tokenize_bounds_aux :
    ∀ (fuel : Nat) (l : Str), l.length ≤ fuel → ∀ p ∈ tokenize l,
      (p.2 = 0 ∨ ∃ ch, l.get? (p.2 - 1) = some ch ∧ pyIsSpace ch) ∧
      (l.get? (p.2 + p.1.length) = none ∨
        ∃ ch, l.get? (p.2 + p.1.length) = some ch ∧ pyIsSpace ch) := by
  intro fuel
  induction fuel with
  | zero =>
    intro l hl p hp
    have : l = [] := List.eq_nil_of_length_eq_zero (Nat.le_zero.mp hl)
    subst this
    simp [tokenize_nil] at hp
  | succ f ih =>
    intro l hl p hp
    cases l with
    | nil => simp [tokenize_nil] at hp
    | cons c rest =>
      simp only [List.length_cons, Nat.add_le_add_iff_right] at hl
      by_cases hws : pyIsSpace c
      · rw [tokenize_cons_ws rest hws] at hp
        rcases List.mem_map.mp hp with ⟨q, hq, hqe⟩
        obtain ⟨hpred, hsucc⟩ := ih rest hl q hq
        subst hqe
        constructor
        · right
          dsimp only
          rw [show q.2 + 1 - 1 = q.2 from by omega]
          cases hq2 : q.2 with
          | zero => exact ⟨c, by rw [List.get?_cons_zero], hws⟩
          | succ m =>
            rcases hpred with h0 | ⟨ch, hch, hchws⟩
            · exact absurd h0 (by omega)
            · refine ⟨ch, ?_, hchws⟩
              rw [hq2] at hch
              simp only [Nat.succ_sub_one] at hch
              rw [List.get?_cons_succ]
              exact hch
        · dsimp only
          rw [show q.2 + 1 + q.1.length = (q.2 + q.1.length) + 1 from by omega,
            List.get?_cons_succ]
          exact hsucc
      · rw [tokenize_cons_tok rest hws] at hp
        have hgetdw : ∀ j, (rest.dropWhile notWs).get? j
            = rest.get? ((rest.takeWhile notWs).length + j) := by
          intro j
          rw [← drop_takeWhile_length notWs rest]
          exact List.get?_drop rest _ j
        rcases List.mem_cons.mp hp with hp | hp
        · subst hp
          refine ⟨Or.inl rfl, ?_⟩
          dsimp only
          rw [show 0 + (c :: rest.takeWhile notWs).length
              = (rest.takeWhile notWs).length + 1 from by
                rw [List.length_cons]; omega,
            List.get?_cons_succ]
          cases hdw : rest.dropWhile notWs with
          | nil =>
            left
            have h0 := hgetdw 0
            rw [hdw] at h0
            simp only [List.get?_nil, Nat.add_zero] at h0
            exact h0.symm
          | cons d ds =>
            right
            refine ⟨d, ?_, pyIsSpace_of_dropWhile_head hdw⟩
            have h0 := hgetdw 0
            rw [hdw] at h0
            simp only [List.get?_cons_zero, Nat.add_zero] at h0
            exact h0.symm
        · rcases List.mem_map.mp hp with ⟨q, hq, hqe⟩
          have hdwlen : (rest.dropWhile notWs).length ≤ f :=
            Nat.le_trans ((List.dropWhile_suffix notWs).length_le) hl
          obtain ⟨hpred, hsucc⟩ := ih (rest.dropWhile notWs) hdwlen q hq
          subst hqe
          constructor
          · right
            dsimp only
            cases hq2 : q.2 with
            | zero =>
              exfalso
              obtain ⟨ch, hch, hchn⟩ := tokenize_start_char _ q hq
              rw [hq2] at hch
              cases hdw : rest.dropWhile notWs with
              | nil => rw [hdw] at hch; simp at hch
              | cons d ds =>
                rw [hdw] at hch
                simp only [List.get?_cons_zero] at hch
                injection hch with hch
                subst hch
                have hdws := pyIsSpace_of_dropWhile_head hdw
                simp [notWs, hdws] at hchn
            | succ m =>
              rcases hpred with h0 | ⟨ch, hch, hchws⟩
              · exact absurd h0 (by omega)
              · refine ⟨ch, ?_, hchws⟩
                rw [hq2] at hch
                simp only [Nat.succ_sub_one] at hch
                rw [show m + 1 + (c :: rest.takeWhile notWs).length - 1
                    = ((rest.takeWhile notWs).length + m) + 1 from by
                      rw [List.length_cons]; omega,
                  List.get?_cons_succ, ← hgetdw m]
                exact hch
          · dsimp only
            rw [show q.2 + (c :: rest.takeWhile notWs).length + q.1.length
                = ((rest.takeWhile notWs).length + (q.2 + q.1.length)) + 1 from by
                  rw [List.length_cons]; omega,
              List.get?_cons_succ, ← hgetdw (q.2 + q.1.length)]
            exact hsucc

/-- C7: for every input text, `Index.tokenize` returns an ordered list of
`(token, offset)` pairs where each token is a nonempty maximal run of
non-whitespace characters (bounded by whitespace or the text's ends),
`text[offset : offset + len(token)] = token` for every pair, offsets are
strictly increasing left to right, and the empty string yields the empty
list. -/
theorem tokenize_correct (l : Str) :
    (∀ p ∈ tokenize l,
      p.1 ≠ [] ∧ (∀ ch ∈ p.1, notWs ch) ∧
      (l.drop p.2).take p.1.length = p.1 ∧
      (p.2 = 0 ∨ ∃ ch, l.get? (p.2 - 1) = some ch ∧ pyIsSpace ch) ∧
      (l.get? (p.2 + p.1.length) = none ∨
        ∃ ch, l.get? (p.2 + p.1.length) = some ch ∧ pyIsSpace ch)) ∧
    List.Pairwise (fun p q : Str × Nat => p.2 + p.1.length ≤ q.2) (tokenize l) ∧
    List.Pairwise (fun p q : Str × Nat => p.2 < q.2) (tokenize l) ∧
    tokenize ([] : Str) = [] := by
  have hshape := tokenize_shape_aux l.length l (Nat.le_refl _)
  have hbounds := tokenize_bounds_aux l.length l (Nat.le_refl _)
  have hpw := tokenize_pairwise_aux l.length l (Nat.le_refl _)
  refine ⟨?_, hpw, ?_, rfl⟩
  · intro p hp
    obtain ⟨h₁, h₂, h₃⟩ := hshape p hp
    obtain ⟨h₄, h₅⟩ := hbounds p hp
    exact ⟨h₁, h₂, h₃, h₄, h₅⟩
  · refine hpw.imp_of_mem ?_
    intro a b ha hb hr
    have hne : a.1 ≠ [] := (hshape a ha).1
    have hlen : 1 ≤ a.1.length := by
      cases hx : a.1 with
      | nil => exact absurd hx hne
      | cons y ys => simp
    omega

/-- Witness for C7: the round trip and boundary facts for the token
`thee` of the demo line, applying `tokenize_correct`. -/
theorem tokenize_correct_witness :
    (['t', 'h', 'e', 'e'] : Str) ≠ [] ∧
    (∀ ch ∈ (['t', 'h', 'e', 'e'] : Str), notWs ch) ∧
    (demoLine.drop 0).take 4 = ['t', 'h', 'e', 'e'] ∧
    ((0 : Nat) = 0 ∨ ∃ ch, demoLine.get? (0 - 1) = some ch ∧ pyIsSpace ch) ∧
    (demoLine.get? (0 + 4) = none ∨
      ∃ ch, demoLine.get? (0 + 4) = some ch ∧ pyIsSpace ch) :=
  (tokenize_correct demoLine).1 (['t', 'h', 'e', 'e'], 0) (by decide)

/-! ### Claim C8: the highlight renderer -/

theorem mergeSpans_pairwise_gap (l : List Span) :
    List.Pairwise (fun x y : Span => x.2 < y.1) (mergeSpans l) := by
  unfold mergeSpans
  cases hs : sortSpans l with
  | nil => simp
  | cons hd tl =>
    obtain ⟨s, e⟩ := hd
    have hsorted := sortSpans_sorted l
    rw [hs] at hsorted
    exact (mergeLoop_spec tl s e hsorted.tail
      (List.pairwise_cons.mp hsorted).1).2.2.1

theorem mergeLoop_in {n : Nat} (rest : List Span) :
    ∀ curS curE : Nat, curS ≤ curE → curE ≤ n →
      (∀ sp ∈ rest, sp.1 ≤ sp.2 ∧ sp.2 ≤ n) →
      ∀ sp ∈ mergeLoop curS curE rest, sp.1 ≤ sp.2 ∧ sp.2 ≤ n := by
  induction rest with
  | nil =>
    intro curS curE h₁ h₂ _ sp hsp
    simp [mergeLoop] at hsp
    subst hsp
    exact ⟨h₁, h₂⟩
  | cons hd tl ih =>
    intro curS curE h₁ h₂ hin sp hsp
    obtain ⟨s, e⟩ := hd
    have hhd := hin _ (List.mem_cons_self _ _)
    have htl : ∀ q ∈ tl, q.1 ≤ q.2 ∧ q.2 ≤ n :=
      fun q hq => hin q (List.mem_cons_of_mem _ hq)
    by_cases hm : s ≤ curE
    · rw [show mergeLoop curS curE ((s, e) :: tl)
        = mergeLoop curS (max curE e) tl by simp [mergeLoop, hm]] at hsp
      exact ih curS (max curE e) (by omega) (by omega) htl sp hsp
    · rw [show mergeLoop curS curE ((s, e) :: tl)
        = (curS, curE) :: mergeLoop s e tl by simp [mergeLoop, hm]] at hsp
      rcases List.mem_cons.mp hsp with h | h
      · subst h; exact ⟨h₁, h₂⟩
      · exact ih s e (by omega) (by omega) htl sp h

theorem mergeSpans_in {n : Nat} {spans : List Span}
    (h : ∀ sp ∈ spans, sp.1 ≤ sp.2 ∧ sp.2 ≤ n) :
    ∀ sp ∈ mergeSpans spans, sp.1 ≤ sp.2 ∧ sp.2 ≤ n := by
  unfold mergeSpans
  cases hs : sortSpans spans with
  | nil => simp
  | cons hd tl =>
    obtain ⟨s, e⟩ := hd
    have hmem : ∀ sp ∈ (s, e) :: tl, sp.1 ≤ sp.2 ∧ sp.2 ≤ n := by
      intro sp hsp
      refine h sp ?_
      rw [← (sortSpans_perm spans).mem_iff, hs]
      exact hsp
    have hhd := hmem _ (List.mem_cons_self _ _)
    exact mergeLoop_in tl s e hhd.1 hhd.2
      fun q hq => hmem q (List.mem_cons_of_mem _ hq)

theorem pySlice_append (l : Str) {i s e : Nat} (h₁ : i ≤ s) (h₂ : s ≤ e) :
    pySlice l i s ++ pySlice l s e = pySlice l i e := by
  unfold pySlice
  have hts : l.take s = (l.take e).take s := by
    rw [List.take_take]
    congr 1
    omega
  rw [hts]
  set L := l.take e with hL
  by_cases hcase : i ≤ (L.take s).length
  · conv_rhs => rw [← List.take_append_drop s L]
    rw [List.drop_append_eq_append_drop]
    rw [show i - (L.take s).length = 0 from by omega, List.drop_zero]
  · have hlen : (L.take s).length = min s L.length := List.length_take s L
    have h₃ : L.drop s = [] := List.drop_eq_nil_of_le (by omega)
    have h₄ : (L.take s).drop i = [] := List.drop_eq_nil_of_le (by omega)
    have h₅ : L.drop i = [] := List.drop_eq_nil_of_le (by omega)
    rw [h₃, h₄, h₅]
    rfl

theorem stripAnsi_of_no_esc : ∀ {l : Str}, escChar ∉ l → stripAnsi l = l := by
  intro l
  induction l with
  | nil => intro _; rfl
  | cons c rest ih =>
    intro h
    have hc : ¬c = escChar := fun hh => h (hh ▸ List.mem_cons_self _ _)
    rw [stripAnsi_cons_ne rest hc, ih fun hh => h (List.mem_cons_of_mem _ hh)]

theorem stripAnsi_append_no_esc {a : Str} (h : escChar ∉ a) (b : Str) :
    stripAnsi (a ++ b) = a ++ stripAnsi b := by
  induction a with
  | nil => rfl
  | cons c rest ih =>
    have hc : ¬c = escChar := fun hh => h (hh ▸ List.mem_cons_self _ _)
    rw [List.cons_append, stripAnsi_cons_ne _ hc,
      ih fun hh => h (List.mem_cons_of_mem _ hh), List.cons_append]

theorem stripAnsi_defaultSeq (b : Str) :
    stripAnsi (defaultSeq ++ b) = stripAnsi b := by
  show stripAnsi (escChar :: ('[' :: '4' :: '3' :: 'm' ::
    escChar :: '[' :: '3' :: '0' :: 'm' :: b)) = stripAnsi b
  rw [stripAnsi_cons_esc]
  rw [show dropToM ('[' :: '4' :: '3' :: 'm' ::
    escChar :: '[' :: '3' :: '0' :: 'm' :: b)
    = escChar :: '[' :: '3' :: '0' :: 'm' :: b from rfl]
  rw [stripAnsi_cons_esc]
  rw [show dropToM ('[' :: '3' :: '0' :: 'm' :: b) = b from rfl]

theorem stripAnsi_brightSeq (b : Str) :
    stripAnsi (brightSeq ++ b) = stripAnsi b := by
  show stripAnsi (escChar :: ('[' :: '1' :: ';' :: '9' :: '2' :: 'm' :: b))
    = stripAnsi b
  rw [stripAnsi_cons_esc]
  rw [show dropToM ('[' :: '1' :: ';' :: '9' :: '2' :: 'm' :: b) = b from rfl]

theorem stripAnsi_resetSeq (b : Str) :
    stripAnsi (resetSeq ++ b) = stripAnsi b := by
  show stripAnsi (escChar :: ('[' :: '0' :: 'm' :: b)) = stripAnsi b
  rw [stripAnsi_cons_esc]
  rw [show dropToM ('[' :: '0' :: 'm' :: b) = b from rfl]

theorem highlightLoop_cons (text seq : Str) (i s e : Nat) (tl : List Span) :
    highlightLoop text seq i ((s, e) :: tl) =
      pySlice text i s ++ seq ++ pySlice text s e ++ resetSeq ++
        highlightLoop text seq e tl := by
  simp [highlightLoop]

theorem highlightLoop_strip {text seq : Str}
    (hseq : ∀ b, stripAnsi (seq ++ b) = stripAnsi b)
    (hesc : escChar ∉ text) :
    ∀ (sps : List Span) (i : Nat),
      (∀ sp ∈ sps, sp.1 ≤ sp.2 ∧ sp.2 ≤ text.length) →
      List.Pairwise (fun x y : Span => x.2 < y.1) sps →
      (∀ sp ∈ sps, i ≤ sp.1) →
      stripAnsi (highlightLoop text seq i sps) = text.drop i := by
  intro sps
  induction sps with
  | nil =>
    intro i _ _ _
    exact stripAnsi_of_no_esc fun hh => hesc (List.drop_subset i text hh)
  | cons hd tl ih =>
    intro i hin hpw hge
    obtain ⟨s, e⟩ := hd
    have hhd : s ≤ e ∧ e ≤ text.length := hin _ (List.mem_cons_self _ _)
    have hi : i ≤ s := hge _ (List.mem_cons_self _ _)
    have hslice₁ : escChar ∉ pySlice text i s :=
      fun hh => hesc (List.take_subset s text (List.drop_subset i _ hh))
    have hslice₂ : escChar ∉ pySlice text s e :=
      fun hh => hesc (List.take_subset e text (List.drop_subset s _ hh))
    rw [highlightLoop_cons, List.append_assoc, List.append_assoc,
      List.append_assoc]
    rw [stripAnsi_append_no_esc hslice₁, hseq,
      stripAnsi_append_no_esc hslice₂, stripAnsi_resetSeq,
      ih e (fun q hq => hin q (List.mem_cons_of_mem _ hq)) hpw.tail
        (fun q hq => Nat.le_of_lt ((List.pairwise_cons.mp hpw).1 q hq))]
    have hdropi : text.drop i = pySlice text i text.length := by
      unfold pySlice
      rw [List.take_length]
    have hdrope : text.drop e = pySlice text e text.length := by
      unfold pySlice
      rw [List.take_length]
    rw [hdrope, hdropi, ← List.append_assoc,
      pySlice_append text hi hhd.1,
      pySlice_append text (Nat.le_trans hi hhd.1) hhd.2]

theorem highlightLoop_count {text : Str} (seq : Str)
    (hesc : escChar ∉ text) :
    ∀ (sps : List Span) (i : Nat),
      (highlightLoop text seq i sps).count escChar =
        sps.length * (seq.count escChar + 1) := by
  intro sps
  have hreset : resetSeq.count escChar = 1 := rfl
  induction sps with
  | nil =>
    intro i
    simp only [highlightLoop, List.length_nil, Nat.zero_mul]
    rw [List.count_eq_zero]
    exact fun hh => hesc (List.drop_subset i text hh)
  | cons hd tl ih =>
    intro i
    obtain ⟨s, e⟩ := hd
    rw [highlightLoop_cons]
    have hslice₁ : (pySlice text i s).count escChar = 0 := by
      rw [List.count_eq_zero]
      exact fun hh => hesc (List.take_subset s text (List.drop_subset i _ hh))
    have hslice₂ : (pySlice text s e).count escChar = 0 := by
      rw [List.count_eq_zero]
      exact fun hh => hesc (List.take_subset e text (List.drop_subset s _ hh))
    simp only [List.count_append, hslice₁, hslice₂, hreset, ih e,
      List.length_cons]
    ring

/-- C8: with no spans the highlighter returns the text unchanged; for a
span set within the bounds of an escape-free text it wraps each merged
span in exactly one opening ANSI sequence (selected by the mode) and one
reset sequence — the output's escape-character count is the number of
merged spans times the markers' per-span escape count — and deleting the
inserted ANSI sequences recovers the input text exactly. -/
theorem ansi_highlight_correct (text : Str) (spans : List Span) (mode : Str) :
    (spans = [] → ansi_highlight text spans mode = text) ∧
    ((∀ sp ∈ spans, sp.1 ≤ sp.2 ∧ sp.2 ≤ text.length) → escChar ∉ text →
      stripAnsi (ansi_highlight text spans mode) = text ∧
      (ansi_highlight text spans mode).count escChar =
        (mergeSpans spans).length *
          ((if mode = DEFAULT_MODE then defaultSeq else brightSeq).count escChar
            + 1)) := by
  constructor
  · intro h
    simp [ansi_highlight, h]
  · intro hin hesc
    by_cases hsp : spans = []
    · subst hsp
      refine ⟨by simp [ansi_highlight, stripAnsi_of_no_esc hesc], ?_⟩
      show text.count escChar = _
      rw [show mergeSpans [] = [] from rfl]
      simp [List.count_eq_zero, hesc]
    · have hrw : ansi_highlight text spans mode =
          highlightLoop text (if mode = DEFAULT_MODE then defaultSeq else brightSeq)
            0 (mergeSpans spans) := by
        simp [ansi_highlight, hsp]
      have hseq : ∀ b, stripAnsi
          ((if mode = DEFAULT_MODE then defaultSeq else brightSeq) ++ b)
          = stripAnsi b := by
        intro b
        by_cases hm : mode = DEFAULT_MODE
        · rw [if_pos hm]; exact stripAnsi_defaultSeq b
        · rw [if_neg hm]; exact stripAnsi_brightSeq b
      refine ⟨?_, ?_⟩
      · rw [hrw, highlightLoop_strip hseq hesc (mergeSpans spans) 0
          (mergeSpans_in hin) (mergeSpans_pairwise_gap spans) (fun sp _ => Nat.zero_le _)]
        rfl
      · rw [hrw, highlightLoop_count _ hesc (mergeSpans spans) 0]

/-- Witness for C8 at a concrete text, span set and mode, applying
`ansi_highlight_correct`. -/
theorem ansi_highlight_correct_witness :
    stripAnsi (ansi_highlight demoLine [(0, 4), (2, 5)] DEFAULT_MODE) = demoLine ∧
    (ansi_highlight demoLine [(0, 4), (2, 5)] DEFAULT_MODE).count escChar =
      (mergeSpans [(0, 4), (2, 5)]).length *
        ((if DEFAULT_MODE = DEFAULT_MODE then defaultSeq else brightSeq).count escChar
          + 1) :=
  (ansi_highlight_correct demoLine [(0, 4), (2, 5)] DEFAULT_MODE).2
    (by decide) (by decide)

/-! ### Claim C10: properties of the built index -/

theorem dupdate_forall [DecidableEq K] {P : K → V → Prop} {d : List (K × V)}
    {k : K} {f : Option V → V} (hd : ∀ p ∈ d, P p.1 p.2)
    (hf : ∀ ov, P k (f ov)) : ∀ p ∈ dupdate d k f, P p.1 p.2 := by
  induction d with
  | nil =>
    intro p hp
    simp [dupdate] at hp
    subst hp
    exact hf none
  | cons q rest ih =>
    obtain ⟨k₁, v₁⟩ := q
    by_cases hk : k₁ = k
    · subst hk
      intro p hp
      rw [show dupdate ((k₁, v₁) :: rest) k₁ f = (k₁, f (some v₁)) :: rest from by
        simp [dupdate]] at hp
      rcases List.mem_cons.mp hp with h | h
      · subst h; exact hf (some v₁)
      · exact hd p (List.mem_cons_of_mem _ h)
    · intro p hp
      simp only [dupdate, if_neg hk, List.mem_cons] at hp
      rcases hp with h | h
      · subst h; exact hd _ (List.mem_cons_self _ _)
      · exact ih (fun q hq => hd q (List.mem_cons_of_mem _ hq)) p h

theorem dupdate_forall_mem [DecidableEq K] {P : K → V → Prop} {d : List (K × V)}
    {k : K} {f : Option V → V} (hd : ∀ p ∈ d, P p.1 p.2)
    (hnone : P k (f none)) (hsome : ∀ v, (k, v) ∈ d → P k (f (some v))) :
    ∀ p ∈ dupdate d k f, P p.1 p.2 := by
  induction d with
  | nil =>
    intro p hp
    simp [dupdate] at hp
    subst hp
    exact hnone
  | cons q rest ih =>
    obtain ⟨k₁, v₁⟩ := q
    by_cases hk : k₁ = k
    · subst hk
      intro p hp
      rw [show dupdate ((k₁, v₁) :: rest) k₁ f = (k₁, f (some v₁)) :: rest from by
        simp [dupdate]] at hp
      rcases List.mem_cons.mp hp with h | h
      · subst h; exact hsome v₁ (List.mem_cons_self _ _)
      · exact hd p (List.mem_cons_of_mem _ h)
    · intro p hp
      simp only [dupdate, if_neg hk, List.mem_cons] at hp
      rcases hp with h | h
      · subst h; exact hd _ (List.mem_cons_self _ _)
      · exact ih (fun q hq => hd q (List.mem_cons_of_mem _ hq))
          (fun v hv => hsome v (List.mem_cons_of_mem _ hv)) p h

/-- Well-formedness of a built dictionary: distinct nonempty stems, and
per stem distinct document ids with nonempty posting lists. -/
def dictWF (dict : IndexDict) : Prop :=
  (dict.map Prod.fst).Nodup ∧
    ∀ p ∈ dict, p.1 ≠ [] ∧ (p.2.map Prod.fst).Nodup ∧ ∀ q ∈ p.2, q.2 ≠ []

theorem addToken_wf {dict : IndexDict} (hwf : dictWF dict) {stem : Str}
    (hstem : stem ≠ []) (doc_id : Int) (line_no : Option Nat) (position : Nat)
    (token : Str) : dictWF (addToken dict doc_id stem line_no position token) := by
  unfold addToken
  constructor
  · exact dupdate_keys_nodup _ _ hwf.1
  · refine dupdate_forall_mem
      (P := fun (st : Str) (pm : PostMap) =>
        st ≠ [] ∧ (pm.map Prod.fst).Nodup ∧ ∀ q ∈ pm, q.2 ≠ [])
      hwf.2 ?_ ?_
    · refine ⟨hstem, ?_, ?_⟩
      · simp only [Option.getD_none]
        exact dupdate_keys_nodup (d := []) _ _ (by simp)
      · intro q hq
        simp only [Option.getD_none] at hq
        exact dupdate_forall_mem (P := fun (k : Int) (ps : List Posting) => ps ≠ [])
          (by simp) (by simp) (by simp) q hq
    · intro pm hpm
      obtain ⟨_, hnd, hne⟩ := hwf.2 _ hpm
      refine ⟨hstem, ?_, ?_⟩
      · simp only [Option.getD_some]
        exact dupdate_keys_nodup _ _ hnd
      · simp only [Option.getD_some]
        refine dupdate_forall_mem (P := fun (k : Int) (ps : List Posting) => ps ≠ [])
          (fun q hq => hne q hq) (by simp) ?_
        intro ps _
        simp

theorem indexText_wf {dict : IndexDict} (hwf : dictWF dict) (stemmer : Str → Str)
    (doc_id : Int) (line_no : Option Nat) (text : Str) :
    dictWF (indexText stemmer dict doc_id line_no text) := by
  unfold indexText
  induction tokenize text generalizing dict with
  | nil => exact hwf
  | cons p rest ih =>
    rw [List.foldl_cons]
    by_cases hstem : normalized_stem_token stemmer p.1 ≠ []
    · simp only [if_pos hstem]
      exact ih (addToken_wf hwf hstem doc_id line_no p.2 p.1)
    · simp only [if_neg hstem]
      exact ih hwf

theorem build_dictWF (stemmer : Str → Str) (sonnets : List Sonnet) :
    dictWF (Index.build stemmer sonnets).dictionary := by
  show dictWF (sonnets.foldl _ [])
  suffices hs : ∀ dict, dictWF dict → dictWF (sonnets.foldl
      (fun dict s =>
        (s.lines.enumFrom 1).foldl
          (fun dict p => indexText stemmer dict s.id (some p.1) p.2)
          (indexText stemmer dict s.id none s.title))
      dict) by
    exact hs [] ⟨by simp, by simp⟩
  induction sonnets with
  | nil => exact fun dict h => h
  | cons s rest ih =>
    intro dict hwf
    rw [List.foldl_cons]
    apply ih
    have h₁ := indexText_wf hwf stemmer s.id none s.title
    generalize indexText stemmer dict s.id none s.title = dict₁ at h₁
    induction s.lines.enumFrom 1 generalizing dict₁ with
    | nil => exact h₁
    | cons q qrest ihq =>
      rw [List.foldl_cons]
      exact ihq _ (indexText_wf h₁ stemmer s.id (some q.1) q.2)

theorem build_sonnets_id (stemmer : Str → Str) (sonnets : List Sonnet) :
    ∀ p ∈ (Index.build stemmer sonnets).sonnets, p.1 = p.2.id := by
  show ∀ p ∈ sonnets.foldl (fun m s => dinsert m s.id s) [], p.1 = p.2.id
  suffices hs : ∀ m : List (Int × Sonnet), (∀ p ∈ m, p.1 = p.2.id) →
      ∀ p ∈ sonnets.foldl (fun m s => dinsert m s.id s) m, p.1 = p.2.id by
    exact hs [] (by simp)
  induction sonnets with
  | nil => exact fun m h => h
  | cons s rest ih =>
    intro m hm
    rw [List.foldl_cons]
    exact ih _ (dinsert_forall (P := fun (k : Int) (v : Sonnet) => k = v.id) hm rfl)

/-! ### Locating one document's value in `Index.search_for`'s folds -/

theorem foldl_rawInner_lookup_ne {doc_id k : Int} (hne : k ≠ doc_id)
    (son : Sonnet) (ps : List Posting) :
    ∀ results : ResMap,
      dlookup (ps.foldl (rawInner doc_id son) results) k = dlookup results k := by
  induction ps with
  | nil => exact fun results => rfl
  | cons p rest ih =>
    intro results
    rw [List.foldl_cons, ih]
    unfold rawInner
    cases dlookup results doc_id <;> exact dlookup_dinsert_ne _ _ hne

theorem rawOuter_lookup_ne {k : Int} (index : Index) {p : Int × List Posting}
    (hne : k ≠ p.1) (results : ResMap) :
    dlookup (rawOuter index results p) k = dlookup results k := by
  unfold rawOuter
  cases dlookup index.sonnets p.1 with
  | none => rfl
  | some son => exact foldl_rawInner_lookup_ne hne son p.2 results

theorem foldl_rawOuter_lookup_not_mem {k : Int} (index : Index)
    {pl : PostMap} (h : k ∉ pl.map Prod.fst) :
    ∀ results : ResMap,
      dlookup (pl.foldl (rawOuter index) results) k = dlookup results k := by
  induction pl with
  | nil => exact fun results => rfl
  | cons p rest ih =>
    intro results
    simp only [List.map_cons, List.mem_cons] at h
    push_neg at h
    rw [List.foldl_cons, ih h.2, rawOuter_lookup_ne index h.1]

theorem foldl_rawInner_lookup_self (doc_id : Int) (son : Sonnet)
    (ps : List Posting) :
    ∀ results : ResMap,
      dlookup (ps.foldl (rawInner doc_id son) results) doc_id =
        innerValue son (dlookup results doc_id) ps := by
  induction ps with
  | nil => exact fun results => rfl
  | cons p rest ih =>
    intro results
    rw [List.foldl_cons]
    show dlookup (rest.foldl (rawInner doc_id son) (rawInner doc_id son results p))
        doc_id = innerValue son (dlookup results doc_id) (p :: rest)
    rw [ih]
    unfold rawInner innerValue
    cases dlookup results doc_id with
    | none =>
      rw [List.foldl_cons]
      simp only [dlookup_dinsert_self]
    | some prev =>
      rw [List.foldl_cons]
      simp only [dlookup_dinsert_self]

theorem foldl_rawOuter_lookup_aux (index : Index) {pl : PostMap}
    (hnd : (pl.map Prod.fst).Nodup) (d : Int) :
    ∀ results : ResMap, dlookup results d = none →
      dlookup (pl.foldl (rawOuter index) results) d =
        match dlookup pl d with
        | none => none
        | some ps =>
          match dlookup index.sonnets d with
          | none => none
          | some son => innerValue son none ps := by
  induction pl with
  | nil => intro results h; simpa [dlookup] using h
  | cons p rest ih =>
    intro results h
    simp only [List.map_cons, List.nodup_cons] at hnd
    rw [List.foldl_cons]
    by_cases hd : d = p.1
    · subst hd
      rw [foldl_rawOuter_lookup_not_mem index hnd.1]
      have hfst : dlookup (p :: rest) p.1 = some p.2 := by
        show (if p.1 = p.1 then some p.2 else dlookup rest p.1) = some p.2
        rw [if_pos rfl]
      rw [hfst]
      unfold rawOuter
      cases hson : dlookup index.sonnets p.1 with
      | none => exact h
      | some son =>
        rw [foldl_rawInner_lookup_self, h]
    · have hfst : dlookup (p :: rest) d = dlookup rest d := by
        show (if p.1 = d then some p.2 else dlookup rest d) = dlookup rest d
        rw [if_neg fun hh => hd hh.symm]
      rw [hfst]
      have hres : dlookup (rawOuter index results p) d = none := by
        rw [rawOuter_lookup_ne index hd]
        exact h
      exact ih hnd.2 _ hres

theorem foldl_rawOuter_lookup (index : Index) {pl : PostMap}
    (hnd : (pl.map Prod.fst).Nodup) (d : Int) :
    dlookup (pl.foldl (rawOuter index) []) d =
      match dlookup pl d with
      | none => none
      | some ps =>
        match dlookup index.sonnets d with
        | none => none
        | some son => innerValue son none ps :=
  foldl_rawOuter_lookup_aux index hnd d [] rfl

/-! ### The single-posting result, observed -/

theorem postingResult_title (s : Sonnet) (p : Posting) :
    (postingResult s p).title = s.title := by
  unfold postingResult
  cases p.line_no <;> rfl

theorem postingResult_matchCount (s : Sonnet) (p : Posting) :
    (postingResult s p).matchCount = 1 := by
  unfold postingResult
  cases p.line_no <;> rfl

theorem postingResult_title_spans (s : Sonnet) (p : Posting) :
    (postingResult s p).title_spans = titleSpansOf [p] := by
  unfold postingResult titleSpansOf spanOfPosting
  cases h : p.line_no <;> simp [h]

theorem postingResult_spansAt (s : Sonnet) (p : Posting) (n : Nat) :
    spansAtL (postingResult s p).line_matches n = lineSpansOf [p] n := by
  unfold postingResult lineSpansOf spanOfPosting
  cases h : p.line_no with
  | none => simp [h, spansAtL]
  | some ln =>
    by_cases hn : ln = n
    · subst hn
      simp [h, spansAtL]
    · simp [h, spansAtL, hn, fun hh : (some ln : Option Nat) = some n => hn
        (Option.some_inj.mp hh)]

theorem postingResult_textOk (s : Sonnet) (p : Posting) :
    textOk s (postingResult s p) := by
  unfold postingResult textOk
  cases p.line_no <;> simp

theorem postingResult_spansFilled (s : Sonnet) (p : Posting) :
    spansFilled (postingResult s p) := by
  unfold postingResult spansFilled
  cases p.line_no <;> simp

theorem titleSpansOf_cons (p : Posting) (ps : List Posting) :
    titleSpansOf (p :: ps) = titleSpansOf [p] ++ titleSpansOf ps := by
  unfold titleSpansOf
  by_cases h : p.line_no = none <;> simp [List.filter_cons, h]

theorem lineSpansOf_cons (p : Posting) (ps : List Posting) (n : Nat) :
    lineSpansOf (p :: ps) n = lineSpansOf [p] n ++ lineSpansOf ps n := by
  unfold lineSpansOf
  by_cases h : p.line_no = some n <;> simp [List.filter_cons, h]

/-! ### Properties preserved through `combine_with`'s line-match merge -/

theorem lmMergeStep_forall {Q : LineMatch → Prop}
    (hmono : ∀ cur lm, Q cur → Q lm → Q { cur with spans := cur.spans ++ lm.spans })
    {d : List (Nat × LineMatch)} (hd : ∀ p ∈ d, Q p.2) {lm : LineMatch}
    (hlm : Q lm) : ∀ p ∈ lmMergeStep d lm, Q p.2 := by
  unfold lmMergeStep
  cases h : dlookup d lm.line_no with
  | some cur =>
    have hcur : Q cur := hd _ (dlookup_mem h)
    exact dinsert_forall (P := fun (k : Nat) (v : LineMatch) => Q v) hd
      (hmono cur lm hcur hlm)
  | none =>
    intro p hp
    rcases List.mem_append.mp hp with hp | hp
    · exact hd p hp
    · rw [List.mem_singleton.mp hp]
      exact hlm

theorem lmMerge_forall {Q : LineMatch → Prop}
    (hmono : ∀ cur lm, Q cur → Q lm → Q { cur with spans := cur.spans ++ lm.spans })
    {lms : List LineMatch} (hlms : ∀ lm ∈ lms, Q lm) :
    ∀ {d : List (Nat × LineMatch)}, (∀ p ∈ d, Q p.2) →
      ∀ p ∈ lmMerge d lms, Q p.2 := by
  induction lms with
  | nil => exact fun hd => hd
  | cons lm rest ih =>
    intro d hd
    show ∀ p ∈ lmMerge (lmMergeStep d lm) rest, Q p.2
    exact ih (fun x hx => hlms x (List.mem_cons_of_mem _ hx))
      (lmMergeStep_forall hmono hd (hlms lm (List.mem_cons_self _ _)))

theorem lmDict_forall {Q : LineMatch → Prop} :
    ∀ {lms : List LineMatch}, (∀ lm ∈ lms, Q lm) → ∀ p ∈ lmDict lms, Q p.2 := by
  suffices hs : ∀ lms : List LineMatch, (∀ lm ∈ lms, Q lm) →
      ∀ d : List (Nat × LineMatch), (∀ p ∈ d, Q p.2) →
      ∀ p ∈ lms.foldl (fun d lm => dinsert d lm.line_no lm) d, Q p.2 by
    intro lms hlms
    exact hs lms hlms [] (by simp)
  intro lms
  induction lms with
  | nil => exact fun _ d hd => hd
  | cons lm rest ih =>
    intro hlms d hd
    rw [List.foldl_cons]
    exact ih (fun x hx => hlms x (List.mem_cons_of_mem _ hx)) _
      (dinsert_forall (P := fun (k : Nat) (v : LineMatch) => Q v) hd
        (hlms lm (List.mem_cons_self _ _)))

theorem combine_with_forall {Q : LineMatch → Prop}
    (hmono : ∀ cur lm, Q cur → Q lm → Q { cur with spans := cur.spans ++ lm.spans })
    {a b : SearchResult} (ha : ∀ lm ∈ a.line_matches, Q lm)
    (hb : ∀ lm ∈ b.line_matches, Q lm) :
    ∀ lm ∈ (a.combine_with b).line_matches, Q lm := by
  intro lm hlm
  have hmem := (combine_with_line_matches_perm a b).mem_iff.mp hlm
  obtain ⟨p, hp, rfl⟩ := List.mem_map.mp hmem
  exact lmMerge_forall hmono hb (lmDict_forall ha) p hp

theorem combine_with_textOk {son : Sonnet} {a b : SearchResult}
    (ha : textOk son a) (hb : textOk son b) : textOk son (a.combine_with b) :=
  combine_with_forall (fun cur lm hc _ => hc) ha hb

theorem combine_with_spansFilled {a b : SearchResult}
    (ha : spansFilled a) (hb : spansFilled b) : spansFilled (a.combine_with b) :=
  combine_with_forall
    (fun cur lm _ hl he => hl (List.append_eq_nil.mp he).2) ha hb

theorem lineSpansAt_def (sr : SearchResult) (n : Nat) :
    lineSpansAt sr n = spansAtL sr.line_matches n := rfl

/-! ### The value `Index.search_for` accumulates for one document -/

theorem innerValue_acc (son : Sonnet) :
    ∀ (ps : List Posting) (acc : SearchResult), acc.title = son.title →
      linesNodup acc → textOk son acc → spansFilled acc →
      ∃ sr₀, innerValue son (some acc) ps = some sr₀ ∧
        sr₀.title = son.title ∧
        sr₀.matchCount = acc.matchCount + ps.length ∧
        sr₀.title_spans.Perm (acc.title_spans ++ titleSpansOf ps) ∧
        (∀ n, (lineSpansAt sr₀ n).Perm (lineSpansAt acc n ++ lineSpansOf ps n)) ∧
        linesNodup sr₀ ∧ textOk son sr₀ ∧ spansFilled sr₀ := by
  intro ps
  induction ps with
  | nil =>
    intro acc ht hn htx hsf
    refine ⟨acc, rfl, ht, by simp, by simp [titleSpansOf], ?_, hn, htx, hsf⟩
    intro n
    simp [lineSpansOf]
  | cons p rest ih =>
    intro acc ht hn htx hsf
    have hstep : innerValue son (some acc) (p :: rest) =
        innerValue son (some (acc.combine_with (postingResult son p))) rest := rfl
    rw [hstep]
    obtain ⟨sr₀, heq, h₁, h₂, h₃, h₄, h₅, h₆, h₇⟩ :=
      ih (acc.combine_with (postingResult son p))
        (by rw [combine_with_title, ht])
        (combine_with_linesNodup _ _)
        (combine_with_textOk htx (postingResult_textOk son p))
        (combine_with_spansFilled hsf (postingResult_spansFilled son p))
    refine ⟨sr₀, heq, h₁, ?_, ?_, ?_, h₅, h₆, h₇⟩
    · rw [h₂, combine_with_matchCount, postingResult_matchCount, List.length_cons]
      omega
    · have hcomb := combine_with_title_spans_perm acc (postingResult son p)
      rw [postingResult_title_spans] at hcomb
      rw [titleSpansOf_cons, ← List.append_assoc]
      exact h₃.trans (hcomb.append_right _)
    · intro n
      have hcomb := combine_with_lineSpansAt hn (postingResult son p) n
      have hpr : lineSpansAt (postingResult son p) n = lineSpansOf [p] n := by
        rw [lineSpansAt_def, postingResult_spansAt]
      rw [hpr] at hcomb
      rw [lineSpansOf_cons, ← List.append_assoc]
      exact (h₄ n).trans (hcomb.append_right _)

theorem innerValue_none_char (son : Sonnet) (p : Posting) (rest : List Posting) :
    ∃ sr₀, innerValue son none (p :: rest) = some sr₀ ∧
      sr₀.title = son.title ∧
      sr₀.matchCount = (p :: rest).length ∧
      sr₀.title_spans.Perm (titleSpansOf (p :: rest)) ∧
      (∀ n, (lineSpansAt sr₀ n).Perm (lineSpansOf (p :: rest) n)) ∧
      linesNodup sr₀ ∧ textOk son sr₀ ∧ spansFilled sr₀ := by
  have hstep : innerValue son none (p :: rest) =
      innerValue son (some (postingResult son p)) rest := rfl
  obtain ⟨sr₀, heq, h₁, h₂, h₃, h₄, h₅, h₆, h₇⟩ :=
    innerValue_acc son rest (postingResult son p) (postingResult_title son p)
      (postingResult_ok son p).2 (postingResult_textOk son p)
      (postingResult_spansFilled son p)
  refine ⟨sr₀, hstep.trans heq, h₁, ?_, ?_, ?_, h₅, h₆, h₇⟩
  · rw [h₂, postingResult_matchCount, List.length_cons]
    omega
  · rw [postingResult_title_spans] at h₃
    rw [titleSpansOf_cons]
    exact h₃
  · intro n
    have hpr : lineSpansAt (postingResult son p) n = lineSpansOf [p] n := by
      rw [lineSpansAt_def, postingResult_spansAt]
    have := h₄ n
    rw [hpr] at this
    rw [lineSpansOf_cons]
    exact this

/-! ### `Sonnet.search_for`'s grouping dict, observed -/

theorem spansAtP_cons (q : Nat × List Span) (d : List (Nat × List Span)) (n : Nat) :
    spansAtP (q :: d) n = (if q.1 = n then q.2 else []) ++ spansAtP d n := by
  by_cases h : q.1 = n <;> simp [spansAtP, List.filter_cons, h]

theorem spansAtP_perm {l₁ l₂ : List (Nat × List Span)} (h : l₁.Perm l₂) (n : Nat) :
    (spansAtP l₁ n).Perm (spansAtP l₂ n) :=
  ((h.filter _).map _).flatten

theorem spansAtP_eq_nil_of_not_mem {d : List (Nat × List Span)} {n : Nat}
    (h : n ∉ d.map Prod.fst) : spansAtP d n = [] := by
  induction d with
  | nil => rfl
  | cons q rest ih =>
    rw [spansAtP_cons]
    have hne : q.1 ≠ n := fun hh => h (by simp [hh])
    rw [if_neg hne, List.nil_append]
    exact ih fun hh => h (by simp [hh])

theorem dupdate_spansAtP {d : List (Nat × List Span)}
    (hnd : (d.map Prod.fst).Nodup) (k n : Nat) (sp : Span) :
    spansAtP (dupdate d k fun cur => cur.getD [] ++ [sp]) n =
      if k = n then spansAtP d n ++ [sp] else spansAtP d n := by
  induction d with
  | nil =>
    by_cases h : k = n
    · subst h
      simp [dupdate, spansAtP]
    · simp [dupdate, spansAtP, h]
  | cons q rest ih =>
    simp only [List.map_cons, List.nodup_cons] at hnd
    by_cases hk : q.1 = k
    · have hd : dupdate (q :: rest) k (fun cur => cur.getD [] ++ [sp]) =
          (q.1, q.2 ++ [sp]) :: rest := by
        obtain ⟨k₁, v₁⟩ := q
        simp only at hk
        subst hk
        simp [dupdate]
      rw [hd, spansAtP_cons, spansAtP_cons]
      by_cases hn : q.1 = n
      · rw [if_pos hn, if_pos hn, if_pos (hk.symm.trans hn)]
        have hrest : spansAtP rest n = [] :=
          spansAtP_eq_nil_of_not_mem (hn ▸ hnd.1)
        rw [hrest]
        simp
      · rw [if_neg hn, if_neg hn, if_neg (fun hh : k = n => hn (hk.trans hh))]
    · have hd : dupdate (q :: rest) k (fun cur => cur.getD [] ++ [sp]) =
          q :: dupdate rest k (fun cur => cur.getD [] ++ [sp]) := by
        obtain ⟨k₁, v₁⟩ := q
        simp only at hk
        simp [dupdate, hk]
      rw [hd, spansAtP_cons, spansAtP_cons, ih hnd.2]
      by_cases hn : k = n
      · rw [if_pos hn, if_pos hn, List.append_assoc]
      · rw [if_neg hn, if_neg hn]

theorem sonnetLineDictStep_none {d : List (Nat × List Span)} {p : Posting}
    (h : p.line_no = none) : sonnetLineDictStep d p = d := by
  simp [sonnetLineDictStep, h]

theorem sonnetLineDictStep_some {d : List (Nat × List Span)} {p : Posting}
    {ln : Nat} (h : p.line_no = some ln) :
    sonnetLineDictStep d p =
      dupdate d ln fun cur => cur.getD [] ++ [spanOfPosting p] := by
  simp [sonnetLineDictStep, h]

theorem lineSpansOf_singleton_none {p : Posting} (h : p.line_no = none) (n : Nat) :
    lineSpansOf [p] n = [] := by
  simp [lineSpansOf, h]

theorem lineSpansOf_singleton_some {p : Posting} {ln : Nat}
    (h : p.line_no = some ln) (n : Nat) :
    lineSpansOf [p] n = if ln = n then [spanOfPosting p] else [] := by
  by_cases hn : ln = n <;> simp [lineSpansOf, h, hn]

theorem sonnetLineDict_spansAtP_aux (n : Nat) :
    ∀ (ps : List Posting) (d : List (Nat × List Span)),
      (d.map Prod.fst).Nodup →
      spansAtP (ps.foldl sonnetLineDictStep d) n =
        spansAtP d n ++ lineSpansOf ps n := by
  intro ps
  induction ps with
  | nil =>
    intro d hd
    simp [lineSpansOf]
  | cons p rest ih =>
    intro d hd
    rw [List.foldl_cons, lineSpansOf_cons]
    cases hpl : p.line_no with
    | none =>
      rw [sonnetLineDictStep_none hpl, ih d hd, lineSpansOf_singleton_none hpl,
        List.nil_append]
    | some ln =>
      rw [sonnetLineDictStep_some hpl, ih _ (dupdate_keys_nodup ln _ hd),
        lineSpansOf_singleton_some hpl]
      rw [dupdate_spansAtP hd ln n (spanOfPosting p)]
      by_cases hn : ln = n
      · rw [if_pos hn, if_pos hn, List.append_assoc]
      · rw [if_neg hn, if_neg hn, List.nil_append]

theorem sonnetLineDict_spansAtP (ps : List Posting) (n : Nat) :
    spansAtP (sonnetLineDict ps) n = lineSpansOf ps n := by
  have h := sonnetLineDict_spansAtP_aux n ps [] (by simp)
  simpa [sonnetLineDict, spansAtP] using h

theorem dupdate_sum_len (d : List (Nat × List Span)) (k : Nat) (sp : Span) :
    ((dupdate d k fun cur => cur.getD [] ++ [sp]).map fun q => q.2.length).sum =
      ((d.map fun q => q.2.length).sum) + 1 := by
  induction d with
  | nil => simp [dupdate]
  | cons q rest ih =>
    obtain ⟨k₁, v₁⟩ := q
    by_cases hk : k₁ = k
    · subst hk
      simp [dupdate]
      omega
    · simp [dupdate, hk, ih]
      omega

theorem sonnetLineDict_sum_len_aux :
    ∀ (ps : List Posting) (d : List (Nat × List Span)),
      ((ps.foldl sonnetLineDictStep d).map fun q => q.2.length).sum =
        ((d.map fun q => q.2.length).sum) +
          (ps.filter fun p => p.line_no ≠ none).length := by
  intro ps
  induction ps with
  | nil =>
    intro d
    simp
  | cons p rest ih =>
    intro d
    rw [List.foldl_cons]
    cases hpl : p.line_no with
    | none =>
      rw [sonnetLineDictStep_none hpl, ih d]
      simp [List.filter_cons, hpl]
    | some ln =>
      rw [sonnetLineDictStep_some hpl, ih _, dupdate_sum_len]
      simp [List.filter_cons, hpl]
      omega

theorem sonnetLineDict_sum_len (ps : List Posting) :
    ((sonnetLineDict ps).map fun q => q.2.length).sum =
      (ps.filter fun p => p.line_no ≠ none).length := by
  have h := sonnetLineDict_sum_len_aux ps []
  simpa [sonnetLineDict] using h

theorem posting_partition (ps : List Posting) :
    (ps.filter fun p => p.line_no = none).length +
      (ps.filter fun p => p.line_no ≠ none).length = ps.length := by
  induction ps with
  | nil => rfl
  | cons p rest ih =>
    simp only [ne_eq, decide_not] at ih ⊢
    by_cases h : p.line_no = none <;> simp [List.filter_cons, h] <;> omega

theorem sonnetLineDict_vals_ne_nil (ps : List Posting) :
    ∀ q ∈ sonnetLineDict ps, q.2 ≠ [] := by
  suffices hs : ∀ (ps : List Posting) (d : List (Nat × List Span)),
      (∀ q ∈ d, q.2 ≠ []) → ∀ q ∈ ps.foldl sonnetLineDictStep d, q.2 ≠ [] by
    exact hs ps [] (by simp)
  intro ps
  induction ps with
  | nil => exact fun d hd => hd
  | cons p rest ih =>
    intro d hd
    rw [List.foldl_cons]
    refine ih _ ?_
    cases hpl : p.line_no with
    | none =>
      rw [sonnetLineDictStep_none hpl]
      exact hd
    | some ln =>
      rw [sonnetLineDictStep_some hpl]
      exact dupdate_forall (P := fun (k : Nat) (v : List Span) => v ≠ []) hd
        (fun ov => by cases ov <;> simp)

theorem spansAtL_map_line (s : Sonnet) (l : List (Nat × List Span)) (n : Nat) :
    spansAtL
        (l.map fun q => (⟨q.1, s.lines.getD (q.1 - 1) [], q.2⟩ : LineMatch)) n =
      spansAtP l n := by
  induction l with
  | nil => rfl
  | cons q rest ih =>
    rw [List.map_cons, spansAtL_cons, spansAtP_cons, ih]

/-! ### `Sonnet.search_for`, observed through `sonnetHit` -/

theorem sonnetHit_title (s : Sonnet) (ps : List Posting) :
    (sonnetHit s ps).title = s.title := rfl

theorem sonnetHit_title_spans (s : Sonnet) (ps : List Posting) :
    (sonnetHit s ps).title_spans = titleSpansOf ps := rfl

theorem sonnetHit_lineSpansAt (s : Sonnet) (ps : List Posting) (n : Nat) :
    (lineSpansAt (sonnetHit s ps) n).Perm (lineSpansOf ps n) := by
  rw [lineSpansAt_def]
  show (spansAtL ((List.insertionSort pairLe (sonnetLineDict ps)).map _) n).Perm _
  rw [spansAtL_map_line]
  have hperm : (spansAtP (List.insertionSort pairLe (sonnetLineDict ps)) n).Perm
      (spansAtP (sonnetLineDict ps) n) :=
    spansAtP_perm (List.perm_insertionSort pairLe _) n
  rw [sonnetLineDict_spansAtP] at hperm
  exact hperm

theorem sonnetHit_matchCount (s : Sonnet) (ps : List Posting) :
    (sonnetHit s ps).matchCount = ps.length := by
  unfold sonnetHit
  dsimp only
  rw [List.map_map]
  have hmap :
      (List.insertionSort pairLe (sonnetLineDict ps)).map
          ((fun lm : LineMatch => lm.spans.length) ∘
            fun q : Nat × List Span =>
              (⟨q.1, s.lines.getD (q.1 - 1) [], q.2⟩ : LineMatch)) =
        (List.insertionSort pairLe (sonnetLineDict ps)).map fun q => q.2.length :=
    List.map_congr_left fun q hq => rfl
  rw [hmap]
  have hsum :
      ((List.insertionSort pairLe (sonnetLineDict ps)).map fun q => q.2.length).sum =
        ((sonnetLineDict ps).map fun q => q.2.length).sum :=
    ((List.perm_insertionSort pairLe _).map _).sum_eq
  rw [hsum, sonnetLineDict_sum_len]
  have htl : (titleSpansOf ps).length =
      (ps.filter fun p => p.line_no = none).length := by
    unfold titleSpansOf
    rw [List.length_map]
  rw [htl, posting_partition]

theorem sonnetHit_linesNodup (s : Sonnet) (ps : List Posting) :
    linesNodup (sonnetHit s ps) := by
  unfold linesNodup sonnetHit
  dsimp only
  exact sonnet_line_matches_nodup s ps

theorem sonnetHit_textOk (s : Sonnet) (ps : List Posting) :
    textOk s (sonnetHit s ps) := by
  unfold textOk sonnetHit
  dsimp only
  intro lm hlm
  obtain ⟨q, hq, rfl⟩ := List.mem_map.mp hlm
  rfl

theorem sonnetHit_spansFilled (s : Sonnet) (ps : List Posting) :
    spansFilled (sonnetHit s ps) := by
  unfold spansFilled sonnetHit
  dsimp only
  intro lm hlm
  obtain ⟨q, hq, rfl⟩ := List.mem_map.mp hlm
  show q.2 ≠ []
  exact sonnetLineDict_vals_ne_nil ps q
    ((List.perm_insertionSort pairLe _).mem_iff.mp hq)

theorem sonnetHit_nil (s : Sonnet) : sonnetHit s [] = ⟨s.title, [], [], 0⟩ := rfl

theorem sonnet_search_for_hit {stemmer : Str → Str} {index : Index} {query : Str}
    {pl : PostMap} (s : Sonnet)
    (h : dlookup index.dictionary (normalized_stem_token stemmer query) = some pl) :
    s.search_for stemmer query index = sonnetHit s ((dlookup pl s.id).getD []) := by
  simp only [Sonnet.search_for, sonnetHit, h]

theorem sonnet_search_for_miss {stemmer : Str → Str} {index : Index} {query : Str}
    (s : Sonnet)
    (h : dlookup index.dictionary (normalized_stem_token stemmer query) = none) :
    s.search_for stemmer query index = ⟨s.title, [], [], 0⟩ := by
  simp only [Sonnet.search_for, h]

theorem filter_line_no_single {lms : List LineMatch}
    (h : (lms.map fun lm => lm.line_no).Nodup) (n : Nat) :
    lms.filter (fun lm => lm.line_no == n) = [] ∨
      ∃ lm, lms.filter (fun lm => lm.line_no == n) = [lm] := by
  induction lms with
  | nil => exact Or.inl rfl
  | cons lm rest ih =>
    simp only [List.map_cons, List.nodup_cons] at h
    by_cases hn : lm.line_no = n
    · right
      refine ⟨lm, ?_⟩
      rw [List.filter_cons_of_pos (by simp [hn])]
      have hrest : rest.filter (fun lm => lm.line_no == n) = [] := by
        cases hf : rest.filter (fun lm => lm.line_no == n) with
        | nil => rfl
        | cons y ys =>
          exfalso
          have hy : y ∈ rest.filter (fun lm => lm.line_no == n) := by
            rw [hf]
            exact List.mem_cons_self _ _
          have hmem := List.mem_filter.mp hy
          have hyn : y.line_no = n := by simpa using hmem.2
          exact h.1 (List.mem_map.mpr ⟨y, hmem.1, hyn.trans hn.symm⟩)
      rw [hrest]
    · rw [List.filter_cons_of_neg (by simp [hn])]
      exact ih h.2

theorem lineTextsAt_char {son : Sonnet} {sr : SearchResult}
    (hnd : linesNodup sr) (htx : textOk son sr) (hsf : spansFilled sr) (n : Nat) :
    lineTextsAt sr n =
      if lineSpansAt sr n = [] then [] else [son.lines.getD (n - 1) []] := by
  unfold lineTextsAt lineSpansAt spansAtL
  rcases filter_line_no_single hnd n with h | ⟨lm, h⟩
  · rw [h]
    simp
  · rw [h]
    have hlm : lm ∈ sr.line_matches.filter (fun lm => lm.line_no == n) := by
      rw [h]
      exact List.mem_cons_self _ _
    have hmem := List.mem_filter.mp hlm
    have hln : lm.line_no = n := by simpa using hmem.2
    have hne : lm.spans ≠ [] := hsf lm hmem.1
    rw [if_neg (by simp [hne])]
    rw [List.map_singleton, htx lm hmem.1, hln]

theorem dictWF_empty_key {dict : IndexDict} (hwf : dictWF dict) :
    dlookup dict ([] : Str) = none := by
  cases h : dlookup dict ([] : Str) with
  | none => rfl
  | some pl => exact absurd rfl (hwf.2 _ (dlookup_mem h)).1

/-- **C10**: over a built index, the per-stem lookup `Index.search_for`
and the per-document `Sonnet.search_for` agree for every sonnet of the
index and every query token: when the lookup mapping contains the sonnet's
id, that entry has the same title, the same match count, the same multiset
of title spans, and for each line number the same multiset of line spans
and the same verbatim line texts as the per-document search; when the
mapping omits the id, the per-document search returns a result with zero
matches and no spans. -/
theorem index_lookup_refines_sonnet_search (stemmer : Str → Str)
    (corpus : List Sonnet) (token : Str) (index : Index) {d : Int} {s : Sonnet}
    (hidx : index = Index.build stemmer corpus)
    (hson : dlookup index.sonnets d = some s) :
    (∀ sr₀, dlookup (Index.search_for stemmer index token) d = some sr₀ →
        sr₀.title = (s.search_for stemmer token index).title ∧
        sr₀.matchCount = (s.search_for stemmer token index).matchCount ∧
        (sr₀.title_spans : Multiset Span) =
          ((s.search_for stemmer token index).title_spans : Multiset Span) ∧
        ∀ n : Nat,
          (lineSpansAt sr₀ n : Multiset Span) =
              (lineSpansAt (s.search_for stemmer token index) n : Multiset Span) ∧
            lineTextsAt sr₀ n =
              lineTextsAt (s.search_for stemmer token index) n) ∧
    (dlookup (Index.search_for stemmer index token) d = none →
        (s.search_for stemmer token index).matchCount = 0 ∧
        (s.search_for stemmer token index).title_spans = [] ∧
        (s.search_for stemmer token index).line_matches = []) := by
  have hwf : dictWF index.dictionary := by
    rw [hidx]
    exact build_dictWF stemmer corpus
  have hson' : dlookup (Index.build stemmer corpus).sonnets d = some s := by
    rw [← hidx]
    exact hson
  have hdid : d = s.id :=
    build_sonnets_id stemmer corpus (d, s) (dlookup_mem hson')
  by_cases hstnil : normalized_stem_token stemmer token = []
  · have hrl : Index.search_for stemmer index token = [] := by
      unfold Index.search_for rawLookup
      rw [if_pos hstnil]
    constructor
    · intro sr₀ h
      rw [hrl] at h
      exact absurd h (by simp [dlookup])
    · intro _
      have hdict : dlookup index.dictionary (normalized_stem_token stemmer token) =
          none := by
        rw [hstnil]
        exact dictWF_empty_key hwf
      rw [sonnet_search_for_miss s hdict]
      exact ⟨rfl, rfl, rfl⟩
  · cases hdl : dlookup index.dictionary (normalized_stem_token stemmer token) with
    | none =>
      have hrl : Index.search_for stemmer index token = [] := by
        unfold Index.search_for rawLookup
        rw [if_neg hstnil, hdl]
      constructor
      · intro sr₀ h
        rw [hrl] at h
        exact absurd h (by simp [dlookup])
      · intro _
        rw [sonnet_search_for_miss s hdl]
        exact ⟨rfl, rfl, rfl⟩
    | some pl =>
      have hplwf := hwf.2 _ (dlookup_mem hdl)
      have hrl : Index.search_for stemmer index token =
          pl.foldl (rawOuter index) [] := by
        unfold Index.search_for rawLookup
        rw [if_neg hstnil, hdl]
      have hlook := foldl_rawOuter_lookup index hplwf.2.1 d
      have hsonnet := sonnet_search_for_hit s hdl
      cases hpd : dlookup pl d with
      | none =>
        have hnone : dlookup (Index.search_for stemmer index token) d = none := by
          rw [hrl, hlook, hpd]
        constructor
        · intro sr₀ h
          rw [hnone] at h
          exact absurd h (by simp)
        · intro _
          rw [hsonnet, ← hdid, hpd]
          exact ⟨rfl, rfl, rfl⟩
      | some ps =>
        have hpsne : ps ≠ [] := hplwf.2.2 _ (dlookup_mem hpd)
        obtain ⟨p₀, rest, rfl⟩ := List.exists_cons_of_ne_nil hpsne
        obtain ⟨sr₁, heq, h₁, h₂, h₃, h₄, h₅, h₆, h₇⟩ := innerValue_none_char s p₀ rest
        have hsome : dlookup (Index.search_for stemmer index token) d = some sr₁ := by
          rw [hrl, hlook, hpd, hson]
          exact heq
        rw [hsonnet, ← hdid, hpd, Option.getD_some]
        constructor
        · intro sr₀ h
          rw [hsome] at h
          injection h with h
          subst h
          refine ⟨?_, ?_, ?_, ?_⟩
          · rw [h₁, sonnetHit_title]
          · rw [h₂, sonnetHit_matchCount]
          · rw [Multiset.coe_eq_coe, sonnetHit_title_spans]
            exact h₃
          · intro n
            constructor
            · rw [Multiset.coe_eq_coe]
              exact (h₄ n).trans (sonnetHit_lineSpansAt s _ n).symm
            · rw [lineTextsAt_char h₅ h₆ h₇ n,
                lineTextsAt_char (sonnetHit_linesNodup s _) (sonnetHit_textOk s _)
                  (sonnetHit_spansFilled s _) n]
              have hiff : lineSpansAt sr₁ n = [] ↔
                  lineSpansAt (sonnetHit s (p₀ :: rest)) n = [] := by
                constructor
                · intro hh
                  have hp := h₄ n
                  rw [hh] at hp
                  have hz := hp.symm.eq_nil
                  have hs2 := sonnetHit_lineSpansAt s (p₀ :: rest) n
                  rw [hz] at hs2
                  exact hs2.eq_nil
                · intro hh
                  have hs2 := sonnetHit_lineSpansAt s (p₀ :: rest) n
                  rw [hh] at hs2
                  have hz := hs2.symm.eq_nil
                  have hp := h₄ n
                  rw [hz] at hp
                  exact hp.eq_nil
              by_cases hc : lineSpansAt sr₁ n = []
              · rw [if_pos hc, if_pos (hiff.mp hc)]
              · rw [if_neg hc, if_neg fun hh => hc (hiff.mpr hh)]
        · intro h
          rw [hsome] at h
          exact absurd h (by simp)

theorem index_refines_sonnet_witness :
    dlookup demoIndex.sonnets 1 = some demoSonnet ∧
    dlookup (Index.search_for demoStem demoIndex demoQueryT) 1 =
      some demoTheeResult ∧
    demoTheeResult.title = (demoSonnet.search_for demoStem demoQueryT demoIndex).title ∧
    demoTheeResult.matchCount =
      (demoSonnet.search_for demoStem demoQueryT demoIndex).matchCount ∧
    (demoTheeResult.title_spans : Multiset Span) =
      ((demoSonnet.search_for demoStem demoQueryT demoIndex).title_spans :
        Multiset Span) ∧
    (lineSpansAt demoTheeResult 1 : Multiset Span) =
      (lineSpansAt (demoSonnet.search_for demoStem demoQueryT demoIndex) 1 :
        Multiset Span) ∧
    lineTextsAt demoTheeResult 1 =
      lineTextsAt (demoSonnet.search_for demoStem demoQueryT demoIndex) 1 := by
  have hson : dlookup demoIndex.sonnets (1 : Int) = some demoSonnet := by decide
  have h := (index_lookup_refines_sonnet_search demoStem [demoSonnet] demoQueryT
      demoIndex rfl hson).1 demoTheeResult (by decide)
  exact ⟨hson, by decide, h.1, h.2.1, h.2.2.1, (h.2.2.2 1).1, (h.2.2.2 1).2⟩
